import Mathlib

/-!
# Verification of the bolivar pdfplumber interception & streaming-cache layer

A shallow embedding of the core of `crates/python/python/pdfminer/_bolivar_patch.py`:

* the bounded streaming cache `_BolivarTableStream` (`get`, `_evict_cache`,
  `_get_from_fresh_stream`),
* the geometry tracker (`_base_geometries`, `_build_geometries`, `_page_geom`),
* the lazy page collection `BolivarLazyPages` (`__getitem__`, `__iter__`,
  `__aiter__`, `_ensure_doctops`),
* the configuration-key normalizer `_normalize_key`,
* the idempotent patch installation `_apply_patch`.

Python machine reals (`float`) are modelled as `Rat`; Python dicts are modelled
as association lists whose keys are distinct; a Producer run (one call of the
stream factory) is modelled as the finite list of `(page_index, TableSet)`
pairs it yields, followed optionally by a raised exception.  Fallible Python
code is modelled in `Except`.
-/

namespace Bolivar

/-- Decidable equality for `Except`, used to evaluate concrete runs. -/
instance {ε α : Type} [DecidableEq ε] [DecidableEq α] : DecidableEq (Except ε α) := fun a b =>
  match a, b with
  | .ok x, .ok y =>
    if h : x = y then .isTrue (by rw [h]) else .isFalse (by intro hc; cases hc; exact h rfl)
  | .ok _, .error _ => .isFalse (by intro hc; cases hc)
  | .error _, .ok _ => .isFalse (by intro hc; cases hc)
  | .error e, .error f =>
    if h : e = f then .isTrue (by rw [h]) else .isFalse (by intro hc; cases hc; exact h rfl)

/-! ## Bounded streaming cache (`_BolivarTableStream`)

The payload type `α` stands for `_Tables` (the `TableSet` of one page), the
type `ε` for the exception objects a Producer may raise.  One Producer run
yields `items` in order and then either terminates normally (`err = none`,
Python `StopIteration`) or raises `err = some e`.  A *pure* factory is one
whose every run is the same `ProducerRun`. -/

/-- One run of the table-extraction Producer: the `(page_index, TableSet)`
pairs it yields, then normal exhaustion (`err = none`) or an exception. -/
structure ProducerRun (α ε : Type) where
  items : List (Nat × α)
  err : Option ε

/-- Python `dict` lookup (`d.get(k)` / `k in d`) on an association list. -/
def cacheLookup {α : Type} (k : Nat) : List (Nat × α) → Option α
  | [] => none
  | (k', v) :: rest => if k' = k then some v else cacheLookup k rest

/-- Python `dict` insertion `d[k] = v`: replaces the value of an existing key
in place, otherwise appends the new binding (insertion order). -/
def dictInsert {α : Type} (k : Nat) (v : α) : List (Nat × α) → List (Nat × α)
  | [] => [(k, v)]
  | (k', v') :: rest => if k' = k then (k, v) :: rest else (k', v') :: dictInsert k v rest

/-- `_BolivarTableStream._evict_cache(newest_index)`: with a zero cache limit
the cache is cleared; otherwise every key `< newest - (limit - 1)` is popped,
i.e. exactly the keys with `key + limit ≤ newest` (equivalently, a key is kept
iff `newest < key + limit`). -/
def evictCache {α : Type} (limit : Nat) (newest : Nat) (cache : List (Nat × α)) :
    List (Nat × α) :=
  if limit = 0 then []
  else cache.filter fun p => decide (newest < p.1 + limit)

/-- `_BolivarTableStream._get_from_fresh_stream(page_index)`: scan a fresh
Producer run forward; return the payload on an exact index match; stop early
returning `None` once the yielded index overshoots the target; `None` on
normal exhaustion; a raised exception propagates. -/
def getFromFreshStream {α ε : Type} (target : Nat) :
    List (Nat × α) → Option ε → Except ε (Option α)
  | [], none => .ok none
  | [], some e => .error e
  | (idx, t) :: rest, er =>
    if idx = target then .ok (some t)
    else if target < idx then .ok none
    else getFromFreshStream target rest er

/-- The mutable state of one `_BolivarTableStream` instance.  `factory` is the
(pure) stream factory: the run a brand-new Producer instance would yield.
`liveItems`/`liveErr` is what remains of the live Producer iterator created at
construction time. -/
structure BolivarTableStream (α ε : Type) where
  factory : ProducerRun α ε
  liveItems : List (Nat × α)
  liveErr : Option ε
  cache : List (Nat × α)
  done : Bool
  maxIndexSeen : Int
  cacheLimit : Nat

/-- `_BolivarTableStream.__init__` (the Python constructor clamps the limit
with `max(int(cache_limit), 0)`, which is the identity on `Nat`); the default
limit is `_TABLE_STREAM_CACHE_LIMIT = 2`. -/
def mkStream {α ε : Type} (factory : ProducerRun α ε) (cacheLimit : Nat := 2) :
    BolivarTableStream α ε :=
  { factory := factory, liveItems := factory.items, liveErr := factory.err,
    cache := [], done := false, maxIndexSeen := -1, cacheLimit := cacheLimit }

/-- The draining `while` loop of `_BolivarTableStream.get`: while the target is
absent from the cache, pull the next item from the live iterator (normal
exhaustion sets `done` and breaks; an exception propagates, after which a
generator is dead), insert it, raise the high-water mark, and evict.  Returns
the loop outcome together with the remaining live iterator, the new cache, the
new high-water mark and the new `done` flag. -/
def drainLoop {α ε : Type} (target limit : Nat) (lerr : Option ε) :
    List (Nat × α) → List (Nat × α) → Int →
    Except ε Unit × List (Nat × α) × Option ε × List (Nat × α) × Int × Bool
  | live, cache, maxSeen =>
    if (cacheLookup target cache).isSome then (.ok (), live, lerr, cache, maxSeen, false)
    else
      match live with
      | [] =>
        match lerr with
        | some e => (.error e, [], none, cache, maxSeen, false)
        | none => (.ok (), [], none, cache, maxSeen, true)
      | (idx, t) :: rest =>
        drainLoop target limit lerr rest
          (evictCache limit idx (dictInsert idx t cache)) (max maxSeen (idx : Int))

/-- `_BolivarTableStream.get(page_index)`: cache hit; else bounded replay from
a brand-new Producer run when the index was already passed (`page_index <
max_index_seen`) or the live Producer is exhausted; else drain the live
Producer. -/
def streamGet {α ε : Type} (target : Nat) (s : BolivarTableStream α ε) :
    Except ε (Option α) × BolivarTableStream α ε :=
  match cacheLookup target s.cache with
  | some t => (.ok (some t), s)
  | none =>
    if (target : Int) < s.maxIndexSeen ∨ s.done then
      (getFromFreshStream target s.factory.items s.factory.err, s)
    else
      match drainLoop target s.cacheLimit s.liveErr s.liveItems s.cache s.maxIndexSeen with
      | (.ok _, live', lerr', cache', maxSeen', done') =>
        (.ok (cacheLookup target cache'),
         { s with liveItems := live', liveErr := lerr', cache := cache',
                  maxIndexSeen := maxSeen', done := done' })
      | (.error e, live', lerr', cache', maxSeen', done') =>
        (.error e,
         { s with liveItems := live', liveErr := lerr', cache := cache',
                  maxIndexSeen := maxSeen', done := done' })

/-- A finite sequence of `get` calls on one cache instance, returning the list
of per-call results and the final state. -/
def runGets {α ε : Type} : List Nat → BolivarTableStream α ε →
    List (Except ε (Option α)) × BolivarTableStream α ε
  | [], s => ([], s)
  | c :: cs, s =>
    let r := streamGet c s
    let rest := runGets cs r.2
    (r.1 :: rest.1, rest.2)

/-- The invariant of every reachable state of a `_BolivarTableStream` whose
factory is pure with strictly increasing yielded page indices and a positive
eviction window. -/
structure StreamInvS {α ε : Type} (s : BolivarTableStream α ε) : Prop where
  pureRun : s.factory.err = none
  liveNoErr : s.liveErr = none
  sortedRun : (s.factory.items.map Prod.fst).Pairwise (· < ·)
  limitPos : 1 ≤ s.cacheLimit
  liveSuffix : ∃ pre, pre ++ s.liveItems = s.factory.items ∧
    ∀ p ∈ pre, (p.1 : Int) ≤ s.maxIndexSeen
  liveAhead : ∀ p ∈ s.liveItems, s.maxIndexSeen < (p.1 : Int)
  cacheAgree : ∀ p ∈ s.cache, cacheLookup p.1 s.factory.items = some p.2
  cacheNodup : (s.cache.map Prod.fst).Nodup
  cacheBound : ∀ p ∈ s.cache, (p.1 : Int) ≤ s.maxIndexSeen
  maxMem : 0 ≤ s.maxIndexSeen → ∃ p ∈ s.cache, (p.1 : Int) = s.maxIndexSeen

/-- The invariant establishing the cache bound: live Producer suffix
non-decreasing and at or beyond the high-water mark, cache keys distinct and
inside the sliding window `(maxIndexSeen - W, maxIndexSeen]`.  Producer
exceptions are permitted. -/
structure StreamInvB {α ε : Type} (s : BolivarTableStream α ε) : Prop where
  sortedLive : (s.liveItems.map Prod.fst).Pairwise (· ≤ ·)
  liveAhead : ∀ p ∈ s.liveItems, s.maxIndexSeen ≤ (p.1 : Int)
  cacheNodup : (s.cache.map Prod.fst).Nodup
  cacheWindow : ∀ p ∈ s.cache,
    (p.1 : Int) ≤ s.maxIndexSeen ∧ s.maxIndexSeen < (p.1 : Int) + s.cacheLimit

/-! ## Geometry tracker (`_base_geometries`, `_build_geometries`)

Python `float` is modelled as `Rat`.  A `BBox` is the 4-tuple view of a page
box; `box[1]` and `box[3]` are the fields `c1` and `c3`. -/

/-- A page bounding box `(box[0], box[1], box[2], box[3])`. -/
structure BBox where
  c0 : Rat
  c1 : Rat
  c2 : Rat
  c3 : Rat
deriving DecidableEq

/-- `_PageGeometry = (box, mediabox, doctop, is_cropped)`. -/
structure PageGeometry where
  box : BBox
  mediabox : BBox
  doctop : Rat
  isCropped : Bool
deriving DecidableEq

/-- The height of a box, `box[3] - box[1]`. -/
def boxHeight (b : BBox) : Rat := b.c3 - b.c1

/-- The `doctops` accumulation loop of `_base_geometries`: append the running
total, then advance it by the box height `box[3] - box[1]`. -/
def baseDoctops : List BBox → Rat → List Rat
  | [], _ => []
  | b :: bs, running => running :: baseDoctops bs (running + (b.c3 - b.c1))

/-- `_base_geometries(doc)`: one pass over the document mediaboxes, pairing
each box with the running sum of the preceding heights; `(box, box, doctop,
False)` per page. -/
def baseGeometries (boxes : List BBox) : List PageGeometry :=
  (boxes.zip (baseDoctops boxes 0)).map fun p => ⟨p.1, p.1, p.2, false⟩

/-- The fields of a pdfplumber page view consumed by `_page_geom`. -/
structure PageView where
  bbox : BBox
  mediabox : BBox
  initialDoctop : Rat
  isOriginal : Bool

/-- `_page_geom(page) = (tuple(page.bbox), tuple(page.mediabox),
float(page.initial_doctop), not getattr(page, "is_original", True))`. -/
def pageGeom (p : PageView) : PageGeometry :=
  ⟨p.bbox, p.mediabox, p.initialDoctop, !p.isOriginal⟩

/-- `_build_geometries(doc, page_index, page, base)` with an explicitly passed
`base` (when `base is None` the Python code substitutes
`_base_geometries(doc)`, cf. `buildGeometriesFromDoc`): copy `base` and, when
`0 <= page_index < len(geoms)` and the observed geometry differs from the
canonical entry, substitute it at that one index. -/
def buildGeometries (pageIndex : Int) (p : PageView) (base : List PageGeometry) :
    List PageGeometry :=
  let current := pageGeom p
  if 0 ≤ pageIndex ∧ pageIndex < (base.length : Int) ∧ base.get? pageIndex.toNat ≠ some current
  then base.set pageIndex.toNat current
  else base

/-- `_build_geometries` with the defaulted `base=None` argument. -/
def buildGeometriesFromDoc (boxes : List BBox) (pageIndex : Int) (p : PageView) :
    List PageGeometry :=
  buildGeometries pageIndex p (baseGeometries boxes)

/-! ## Lazy page collection (`BolivarLazyPages`)

The Document Engine is the opaque collaborator: it supplies `page_count()`
(= number of mediaboxes), `page_mediaboxes()` and `get_page(index)`.  A page
handle is modelled by its index; a constructed `Page` wrapper object carries a
fresh object identity `objId` so that "the same object was yielded" (Python
`is`) is expressible. -/

/-- The opaque Document Engine: `page_mediaboxes()`; `page_count()` is its
length. -/
structure DocEngine where
  mediaboxes : List BBox
deriving DecidableEq

/-- `doc.get_page(page_index)`: an opaque page handle, modelled by the index. -/
def getPage (_doc : DocEngine) (pageIndex : Nat) : Nat := pageIndex

/-- A constructed `page_mod.Page(...)` wrapper: a fresh object identity plus
the constructor arguments `(page_obj, page_number, initial_doctop)`. -/
structure PageWrapper where
  objId : Nat
  pageObj : Nat
  pageNumber : Nat
  initialDoctop : Rat
deriving DecidableEq

/-- The state of one `BolivarLazyPages` collection: the filtered canonical
page indices, the memo map `_page_cache`, the lazily computed `_doctops`, and
a counter supplying fresh wrapper identities. -/
structure LazyPages where
  doc : DocEngine
  pageNumbers : List Nat
  pageCache : List (Nat × PageWrapper)
  doctops : Option (List Rat)
  nextId : Nat
deriving DecidableEq

/-- `BolivarLazyPages.__init__`: `page_count() <= 0` raises ("PDF contains no
pages"); otherwise the canonical indices `0..page_count` are filtered by
membership of `idx + 1` in `pages_to_parse` when that is provided. -/
def mkLazyPages (doc : DocEngine) (pagesToParse : Option (List Nat)) : Option LazyPages :=
  let pageCount := doc.mediaboxes.length
  if pageCount = 0 then none
  else
    let pageNumbers :=
      match pagesToParse with
      | none => List.range pageCount
      | some allowed => (List.range pageCount).filter fun idx => decide ((idx + 1) ∈ allowed)
    some { doc := doc, pageNumbers := pageNumbers, pageCache := [], doctops := none, nextId := 0 }

/-- The accumulation loop of `_ensure_doctops`: for each filtered page index
look up its mediabox (an out-of-range index raises, wrapped into the domain
exception), record the running total, and advance it by the box height. -/
def filteredDoctops (boxes : List BBox) : List Nat → Rat → Except Unit (List Rat)
  | [], _ => .ok []
  | i :: is, running =>
    match boxes.get? i with
    | none => .error ()
    | some b =>
      match filteredDoctops boxes is (running + (b.c3 - b.c1)) with
      | .error e => .error e
      | .ok rest => .ok (running :: rest)

/-- `BolivarLazyPages._ensure_doctops`: a no-op when `_doctops` is already
computed, otherwise one pass over the filtered indices. -/
def ensureDoctops (c : LazyPages) : Except Unit LazyPages :=
  match c.doctops with
  | some _ => .ok c
  | none =>
    match filteredDoctops c.doc.mediaboxes c.pageNumbers 0 with
    | .error e => .error e
    | .ok ds => .ok { c with doctops := some ds }

/-- The loop body of the async generator in `BolivarLazyPages.__aiter__`: for
each filtered page index, yield the memoized wrapper when the memo map holds
one, otherwise resolve the page from the Document Engine and construct a fresh
wrapper (doctop defaults to `0.0` past the end of the snapshot); the memo map
is never written. -/
def asyncPages (doc : DocEngine) :
    List Nat → List Rat → List (Nat × PageWrapper) → Nat → List PageWrapper
  | [], _, _, _ => []
  | i :: rest, dts, cache, ctr =>
    match cacheLookup i cache with
    | some w => w :: asyncPages doc rest dts.tail cache ctr
    | none =>
      ⟨ctr, getPage doc i, i + 1, dts.headD 0⟩ :: asyncPages doc rest dts.tail cache (ctr + 1)

/-- A full traversal of `BolivarLazyPages.__aiter__`: ensure doctops (this may
raise and does memoize `_doctops` on `self`), snapshot the page numbers and
doctops, then yield pages one at a time. -/
def aiterLazyPages (c : LazyPages) : Except Unit (List PageWrapper × LazyPages) :=
  match ensureDoctops c with
  | .error e => .error e
  | .ok c' =>
    .ok (asyncPages c'.doc c'.pageNumbers (c'.doctops.getD []) c'.pageCache c'.nextId, c')

/-- `BolivarLazyPages.__getitem__` for an integer index: adjust a negative
index, range-check, ensure doctops, then return the memoized wrapper or
construct, memoize and return a fresh one. -/
def lazyGetItem (c : LazyPages) (i : Int) : Except Unit (PageWrapper × LazyPages) :=
  let n := c.pageNumbers.length
  let i' := if i < 0 then i + n else i
  if i' < 0 ∨ (n : Int) ≤ i' then .error ()
  else
    match ensureDoctops c with
    | .error e => .error e
    | .ok c' =>
      let idx := i'.toNat
      let pageIndex := c'.pageNumbers.getD idx 0
      match cacheLookup pageIndex c'.pageCache with
      | some w => .ok (w, c')
      | none =>
        let w : PageWrapper :=
          ⟨c'.nextId, getPage c'.doc pageIndex, pageIndex + 1, (c'.doctops.getD []).getD idx 0⟩
        .ok (w, { c' with pageCache := dictInsert pageIndex w c'.pageCache,
                          nextId := c'.nextId + 1 })

/-- Synchronous iteration `__iter__`: `self[i]` for `i` over the given index
list, threading the collection state (memoization) through. -/
def syncIterList : List Nat → LazyPages → Except Unit (List PageWrapper × LazyPages)
  | [], c => .ok ([], c)
  | i :: is, c =>
    match lazyGetItem c (i : Int) with
    | .error e => .error e
    | .ok (p, c') =>
      match syncIterList is c' with
      | .error e => .error e
      | .ok (ps, c'') => .ok (p :: ps, c'')

/-- A full synchronous traversal: `__iter__` yields `self[i]` for
`i in range(len(self))`. -/
def lazyPagesToList (c : LazyPages) : Except Unit (List PageWrapper × LazyPages) :=
  syncIterList (List.range c.pageNumbers.length) c

/-! ## Patched capability overrides (`extract_tables_from_page`, `_extract_table`)

`_Table = list[list[str | None]]`, `_Tables = list[_Table]`. -/

/-- A table: a list of rows, each row a list of optional cell strings. -/
abbrev Table := List (List (Option String))

/-- A page's `TableSet`. -/
abbrev Tables := List Table

/-- The cache path of the patched `extract_tables_from_page`: route the lookup
through the streaming cache and apply `tables or []` to the result (Python
`or` maps both `None` and the empty list to `[]`). -/
def extractTablesFromPage {ε : Type} (pageIndex : Nat) (s : BolivarTableStream Tables ε) :
    Except ε Tables × BolivarTableStream Tables ε :=
  match streamGet pageIndex s with
  | (.ok t, s') => (.ok (t.getD []), s')
  | (.error e, s') => (.error e, s')

/-- `_table_cell_count(table) = sum(len(row) for row in table)`. -/
def tableCellCount (t : Table) : Nat := (t.map List.length).sum

/-- Python `max(iterable, key=f)`: fold keeping the current maximum, replacing
it only on a strictly larger key (ties keep the earlier element). -/
def pyMaxBy (f : Table → Nat) : Table → Tables → Table
  | best, [] => best
  | best, x :: xs => pyMaxBy f (if f best < f x then x else best) xs

/-- The patched `Page.extract_table`: `None` when `extract_tables` returned an
empty (falsy) list, otherwise `max(tables, key=_table_cell_count)`. -/
def extractTable {ε : Type} (pageIndex : Nat) (s : BolivarTableStream Tables ε) :
    Except ε (Option Table) × BolivarTableStream Tables ε :=
  match extractTablesFromPage pageIndex s with
  | (.ok [], s') => (.ok none, s')
  | (.ok (t :: ts), s') => (.ok (some (pyMaxBy tableCellCount t ts)), s')
  | (.error e, s') => (.error e, s')

/-! ## Patch installation (`_apply_patch`)

The relevant runtime state of a fully loaded `pdfplumber` (with its `page` and
`pdf` submodules importable): the function objects installed on
`Page.extract_tables` / `Page.extract_table`, the getter of the `PDF.pages`
property, the `PDF.close` method, the `__aenter__` presence flag, and the
`repair` substitution.  A Python function object is modelled by a fresh
identity `fid` plus its `_bolivar_patched` marker; `nextId` supplies fresh
identities for newly created function objects. -/

/-- A Python function object: identity plus `_bolivar_patched` marker. -/
structure FuncObj where
  fid : Nat
  bolivarPatched : Bool
deriving DecidableEq

/-- The patch-relevant attribute state of a loaded pdfplumber module set. -/
structure PdfplumberState where
  extractTablesFn : FuncObj
  extractTableFn : FuncObj
  pagesGetter : Option FuncObj
  closeFn : Option FuncObj
  hasAenter : Bool
  repairFn : Nat
  nextId : Nat
deriving DecidableEq

/-- `_apply_patch(module)` on a fully loaded pdfplumber: check the
`_bolivar_patched` marker of `Page.extract_tables` and, only when absent,
install freshly created marked `extract_tables` / `extract_table` overrides;
independently guard the `PDF.pages` property and `PDF.close` overrides by
their own markers, install `__aenter__`/`__aexit__` only when absent, and
(unconditionally) re-install the repair substitution; report success iff the
`PDF.pages` getter carries the marker afterwards. -/
def applyPatch (s : PdfplumberState) : Bool × PdfplumberState :=
  let already := s.extractTablesFn.bolivarPatched
  let s1 :=
    if already then s
    else { s with extractTablesFn := ⟨s.nextId, true⟩,
                  extractTableFn := ⟨s.nextId + 1, true⟩,
                  nextId := s.nextId + 2 }
  let s2 :=
    match s1.pagesGetter with
    | some g =>
      if g.bolivarPatched then s1
      else { s1 with pagesGetter := some ⟨s1.nextId, true⟩, nextId := s1.nextId + 1 }
    | none => { s1 with pagesGetter := some ⟨s1.nextId, true⟩, nextId := s1.nextId + 1 }
  let s3 :=
    match s2.closeFn with
    | some f =>
      if f.bolivarPatched then s2
      else { s2 with closeFn := some ⟨s2.nextId, true⟩, nextId := s2.nextId + 1 }
    | none => { s2 with closeFn := some ⟨s2.nextId, true⟩, nextId := s2.nextId + 1 }
  let s4 :=
    if s3.hasAenter then s3
    else { s3 with hasAenter := true, nextId := s3.nextId + 2 }
  let s5 := { s4 with repairFn := s4.nextId, nextId := s4.nextId + 1 }
  let success :=
    match s5.pagesGetter with
    | some g => g.bolivarPatched
    | none => false
  (success, s5)

/-! ## Key normalizer (`_normalize_key`)

Python configuration values are scalars (`int`, `str`, `None`; `float` and
`bool` behave like `int` for everything proved here and are omitted), lists /
tuples, and dicts.  `_normalize_key` turns dicts into `tuple(sorted((key,
_normalize_key(val)) for key, val in value.items()))` and sequences into
tuples, and passes scalars through.  Python `sorted` compares the `(key,
normalized_value)` 2-tuples with `<`; tuple comparison first locates the first
index at which the elements are not `==` and applies `<` there, and `<`
between values of incomparable types (`int` vs `str`, anything vs `None`)
raises `TypeError`.  `sorted` is modelled as an insertion sort in the same
`Except` monad: any comparison sort agrees with it on inputs whose pairwise
comparisons are defined and induced by a strict order on distinct keys, and on
a two-element list every comparison sort must compare the two elements, so the
totality counterexample does not depend on the choice of algorithm. -/

/-- A scalar configuration value. -/
inductive Scalar
  | int (n : Int)
  | str (s : String)
  | none_
deriving DecidableEq

/-- A nested Python configuration value: scalar, list/tuple, or dict (an
association list of scalar keys, distinct in any value built from a real
Python dict). -/
inductive PyVal
  | scalar (s : Scalar)
  | arr (elems : List PyVal)
  | dict (entries : List (Scalar × PyVal))

/-- A normalized key: scalars and tuples (a `(key, value)` pair is itself a
2-tuple). -/
inductive NormVal
  | scalar (s : Scalar)
  | tup (elems : List NormVal)

mutual

/-- Decidable equality on normalized keys (Python `==` on the normalized
values is structural equality on this fragment). -/
def normValDecEq : (a b : NormVal) → Decidable (a = b)
  | .scalar x, .scalar y =>
    match decEq x y with
    | isTrue h => isTrue (by rw [h])
    | isFalse h => isFalse (by intro hc; cases hc; exact h rfl)
  | .scalar _, .tup _ => isFalse (fun hc => NormVal.noConfusion hc)
  | .tup _, .scalar _ => isFalse (fun hc => NormVal.noConfusion hc)
  | .tup xs, .tup ys =>
    match normValListDecEq xs ys with
    | isTrue h => isTrue (by rw [h])
    | isFalse h => isFalse (by intro hc; cases hc; exact h rfl)

/-- Decidable equality on lists of normalized keys. -/
def normValListDecEq : (a b : List NormVal) → Decidable (a = b)
  | [], [] => isTrue rfl
  | [], _ :: _ => isFalse (fun hc => List.noConfusion hc)
  | _ :: _, [] => isFalse (fun hc => List.noConfusion hc)
  | x :: xs, y :: ys =>
    match normValDecEq x y, normValListDecEq xs ys with
    | isTrue h1, isTrue h2 => isTrue (by rw [h1, h2])
    | isFalse h1, _ => isFalse (by intro hc; injection hc with h _; exact h1 h)
    | _, isFalse h2 => isFalse (by intro hc; injection hc with _ h; exact h2 h)

end

instance : DecidableEq NormVal := normValDecEq

mutual

/-- Decidable equality on Python configuration values. -/
def pyValDecEq : (a b : PyVal) → Decidable (a = b)
  | .scalar x, .scalar y =>
    match decEq x y with
    | isTrue h => isTrue (by rw [h])
    | isFalse h => isFalse (by intro hc; cases hc; exact h rfl)
  | .scalar _, .arr _ => isFalse (fun hc => PyVal.noConfusion hc)
  | .scalar _, .dict _ => isFalse (fun hc => PyVal.noConfusion hc)
  | .arr _, .scalar _ => isFalse (fun hc => PyVal.noConfusion hc)
  | .arr _, .dict _ => isFalse (fun hc => PyVal.noConfusion hc)
  | .dict _, .scalar _ => isFalse (fun hc => PyVal.noConfusion hc)
  | .dict _, .arr _ => isFalse (fun hc => PyVal.noConfusion hc)
  | .arr xs, .arr ys =>
    match pyValListDecEq xs ys with
    | isTrue h => isTrue (by rw [h])
    | isFalse h => isFalse (by intro hc; cases hc; exact h rfl)
  | .dict xs, .dict ys =>
    match pyValEntriesDecEq xs ys with
    | isTrue h => isTrue (by rw [h])
    | isFalse h => isFalse (by intro hc; cases hc; exact h rfl)

/-- Decidable equality on lists of Python configuration values. -/
def pyValListDecEq : (a b : List PyVal) → Decidable (a = b)
  | [], [] => isTrue rfl
  | [], _ :: _ => isFalse (fun hc => List.noConfusion hc)
  | _ :: _, [] => isFalse (fun hc => List.noConfusion hc)
  | x :: xs, y :: ys =>
    match pyValDecEq x y, pyValListDecEq xs ys with
    | isTrue h1, isTrue h2 => isTrue (by rw [h1, h2])
    | isFalse h1, _ => isFalse (by intro hc; injection hc with h _; exact h1 h)
    | _, isFalse h2 => isFalse (by intro hc; injection hc with _ h; exact h2 h)

/-- Decidable equality on dict entry lists. -/
def pyValEntriesDecEq : (a b : List (Scalar × PyVal)) → Decidable (a = b)
  | [], [] => isTrue rfl
  | [], _ :: _ => isFalse (fun hc => List.noConfusion hc)
  | _ :: _, [] => isFalse (fun hc => List.noConfusion hc)
  | (k, x) :: xs, (k', y) :: ys =>
    match decEq k k', pyValDecEq x y, pyValEntriesDecEq xs ys with
    | isTrue h0, isTrue h1, isTrue h2 => isTrue (by rw [h0, h1, h2])
    | isFalse h0, _, _ =>
      isFalse (by intro hc; injection hc with h _; injection h with hk _; exact h0 hk)
    | _, isFalse h1, _ =>
      isFalse (by intro hc; injection hc with h _; injection h with _ hv; exact h1 hv)
    | _, _, isFalse h2 => isFalse (by intro hc; injection hc with _ h; exact h2 h)

end

instance : DecidableEq PyVal := pyValDecEq

/-- Python `<` on scalars: defined within `int` and within `str`, `TypeError`
(modelled as `.error ()`) otherwise — in particular `None < None` raises. -/
def scalarLt : Scalar → Scalar → Except Unit Bool
  | .int a, .int b => .ok (decide (a < b))
  | .str a, .str b => .ok (decide (a < b))
  | _, _ => .error ()

mutual

/-- Python `<` on normalized values: scalar comparison, or lexicographic tuple
comparison; a scalar/tuple mix raises `TypeError`. -/
def normLt : NormVal → NormVal → Except Unit Bool
  | .scalar a, .scalar b => scalarLt a b
  | .tup as, .tup bs => tupLt as bs
  | _, _ => .error ()

/-- Python tuple `<`: skip the longest common (`==`) prefix, compare with `<`
at the first difference, and compare lengths when one tuple is a prefix of the
other. -/
def tupLt : List NormVal → List NormVal → Except Unit Bool
  | [], [] => .ok false
  | [], _ :: _ => .ok true
  | _ :: _, [] => .ok false
  | a :: as, b :: bs => if a = b then tupLt as bs else normLt a b

end

/-- Insert one element into an already sorted list, comparing with Python `<`
(a raised `TypeError` propagates). -/
def sortedInsert (x : NormVal) : List NormVal → Except Unit (List NormVal)
  | [] => .ok [x]
  | y :: ys =>
    match normLt x y with
    | .error e => .error e
    | .ok true => .ok (x :: y :: ys)
    | .ok false =>
      match sortedInsert x ys with
      | .error e => .error e
      | .ok zs => .ok (y :: zs)

/-- Python `sorted` on the normalized `(key, value)` pairs, modelled as an
insertion sort whose comparisons may raise. -/
def sortPairs : List NormVal → Except Unit (List NormVal)
  | [] => .ok []
  | x :: xs =>
    match sortPairs xs with
    | .error e => .error e
    | .ok s => sortedInsert x s

mutual

/-- `_normalize_key(value)`: dicts become the sorted tuple of normalized
`(key, value)` 2-tuples, lists and tuples become tuples of normalized
elements, scalars pass through. -/
def normalizeKey : PyVal → Except Unit NormVal
  | .scalar s => .ok (.scalar s)
  | .arr es =>
    match normalizeList es with
    | .error e => .error e
    | .ok ns => .ok (.tup ns)
  | .dict entries =>
    match normalizeEntries entries with
    | .error e => .error e
    | .ok ps =>
      match sortPairs ps with
      | .error e => .error e
      | .ok sorted => .ok (.tup sorted)

/-- Elementwise normalization of a sequence. -/
def normalizeList : List PyVal → Except Unit (List NormVal)
  | [] => .ok []
  | v :: vs =>
    match normalizeKey v with
    | .error e => .error e
    | .ok n =>
      match normalizeList vs with
      | .error e => .error e
      | .ok ns => .ok (n :: ns)

/-- The materialized generator `(key, _normalize_key(val)) for key, val in
value.items()`: each dict entry becomes the 2-tuple
`(key, normalized value)`. -/
def normalizeEntries : List (Scalar × PyVal) → Except Unit (List NormVal)
  | [] => .ok []
  | (k, v) :: rest =>
    match normalizeKey v with
    | .error e => .error e
    | .ok nv =>
      match normalizeEntries rest with
      | .error e => .error e
      | .ok ns => .ok (.tup [.scalar k, nv] :: ns)

end

/-- The head key of a normalized `(key, value)` 2-tuple, when the key is a
string. -/
def headKeyStr : NormVal → Option String
  | .tup (.scalar (.str k) :: _) => some k
  | _ => none

/-- The string of a string scalar (`""` otherwise). -/
def keyStrOfScalar : Scalar → String
  | .str s => s
  | _ => ""

/-- The strict order induced on normalized `(key, value)` pairs by their
string keys; Python's `sorted` arranges pairs with distinct string keys
according to it. -/
def keyLt (p q : NormVal) : Prop :=
  (headKeyStr p).getD "" < (headKeyStr q).getD ""

/-- Well-formedness of a value as produced by real Python dict-shaped
configuration: every mapping is string-keyed with distinct keys (Python dicts
cannot repeat a key), at every nesting level. -/
inductive StrDictsWF : PyVal → Prop
  | scalar (s : Scalar) : StrDictsWF (.scalar s)
  | arr {es : List PyVal} : (∀ e ∈ es, StrDictsWF e) → StrDictsWF (.arr es)
  | dict {entries : List (Scalar × PyVal)} :
      (∀ p ∈ entries, ∃ s, p.1 = Scalar.str s) →
      (∀ p ∈ entries, StrDictsWF p.2) →
      (entries.map Prod.fst).Nodup →
      StrDictsWF (.dict entries)

mutual

/-- Two configuration values are equal up to permutation of mapping entries
(at every nesting level): scalars are equal, sequences are elementwise
equivalent in order, and one dict's entry list is, after an entrywise
equivalence of values under identical keys, a permutation of the other's. -/
inductive PermEquiv : PyVal → PyVal → Prop
  | scalar (s : Scalar) : PermEquiv (.scalar s) (.scalar s)
  | arr {as bs : List PyVal} : PermEquivList as bs → PermEquiv (.arr as) (.arr bs)
  | dict {as bs cs : List (Scalar × PyVal)} :
      PermEquivEntries as bs → bs.Perm cs → PermEquiv (.dict as) (.dict cs)

/-- Elementwise `PermEquiv` on sequences (order preserved). -/
inductive PermEquivList : List PyVal → List PyVal → Prop
  | nil : PermEquivList [] []
  | cons {a b : PyVal} {as bs : List PyVal} :
      PermEquiv a b → PermEquivList as bs → PermEquivList (a :: as) (b :: bs)

/-- Entrywise `PermEquiv` of dict entries under identical keys. -/
inductive PermEquivEntries :
    List (Scalar × PyVal) → List (Scalar × PyVal) → Prop
  | nil : PermEquivEntries [] []
  | cons {k : Scalar} {a b : PyVal} {ps qs : List (Scalar × PyVal)} :
      PermEquiv a b → PermEquivEntries ps qs →
      PermEquivEntries ((k, a) :: ps) ((k, b) :: qs)

end

/-! ## Lemmas: association-list primitives -/

theorem cacheLookup_eq_none_iff {α : Type} {k : Nat} {l : List (Nat × α)} :
    cacheLookup k l = none ↔ k ∉ l.map Prod.fst := by
  induction l with
  | nil => simp [cacheLookup]
  | cons p rest ih =>
    obtain ⟨k', v⟩ := p
    by_cases h : k' = k
    · subst h
      simp [cacheLookup]
    · have h' : ¬ k = k' := fun hc => h hc.symm
      simp [cacheLookup, h, h', ih]

theorem mem_of_cacheLookup_eq_some {α : Type} {k : Nat} {v : α} {l : List (Nat × α)}
    (h : cacheLookup k l = some v) : (k, v) ∈ l := by
  induction l with
  | nil => simp [cacheLookup] at h
  | cons p rest ih =>
    obtain ⟨k', v'⟩ := p
    by_cases hk : k' = k
    · subst hk
      simp [cacheLookup] at h
      simp [h]
    · simp [cacheLookup, hk] at h
      exact List.mem_cons_of_mem _ (ih h)

theorem cacheLookup_eq_some_of_mem {α : Type} {k : Nat} {v : α} {l : List (Nat × α)}
    (hm : (k, v) ∈ l) (hnd : (l.map Prod.fst).Nodup) : cacheLookup k l = some v := by
  induction l with
  | nil => simp at hm
  | cons p rest ih =>
    obtain ⟨k', v'⟩ := p
    simp only [List.map_cons, List.nodup_cons] at hnd
    rcases List.mem_cons.mp hm with h | h
    · rw [Prod.ext_iff] at h
      obtain ⟨h1, h2⟩ := h
      simp only at h1 h2
      subst h1
      simp [cacheLookup, h2]
    · have hk : k' ≠ k := by
        intro hc
        apply hnd.1
        rw [hc]
        exact List.mem_map.mpr ⟨(k, v), h, rfl⟩
      simp [cacheLookup, hk, ih h hnd.2]

theorem mem_dictInsert {α : Type} {k : Nat} {v : α} {p : Nat × α} {l : List (Nat × α)}
    (h : p ∈ dictInsert k v l) : p = (k, v) ∨ p ∈ l := by
  induction l with
  | nil => simp [dictInsert] at h; simp [h]
  | cons q rest ih =>
    obtain ⟨k', v'⟩ := q
    by_cases hk : k' = k
    · simp [dictInsert, hk] at h
      rcases h with h | h
      · exact Or.inl (by simp [h])
      · exact Or.inr (List.mem_cons_of_mem _ h)
    · simp only [dictInsert, if_neg hk, List.mem_cons] at h
      rcases h with h | h
      · exact Or.inr (List.mem_cons.mpr (Or.inl h))
      · rcases ih h with h' | h'
        · exact Or.inl h'
        · exact Or.inr (List.mem_cons_of_mem _ h')

theorem self_mem_dictInsert {α : Type} (k : Nat) (v : α) (l : List (Nat × α)) :
    (k, v) ∈ dictInsert k v l := by
  induction l with
  | nil => simp [dictInsert]
  | cons q rest ih =>
    obtain ⟨k', v'⟩ := q
    by_cases hk : k' = k <;> simp [dictInsert, hk, ih]

theorem keys_dictInsert_sub {α : Type} {k a : Nat} {v : α} {l : List (Nat × α)}
    (h : a ∈ (dictInsert k v l).map Prod.fst) : a = k ∨ a ∈ l.map Prod.fst := by
  obtain ⟨p, hp, hpa⟩ := List.mem_map.mp h
  rcases mem_dictInsert hp with h' | h'
  · left; rw [← hpa, h']
  · right; exact hpa ▸ List.mem_map.mpr ⟨p, h', rfl⟩

theorem nodup_keys_dictInsert {α : Type} {k : Nat} {v : α} {l : List (Nat × α)}
    (hnd : (l.map Prod.fst).Nodup) : ((dictInsert k v l).map Prod.fst).Nodup := by
  induction l with
  | nil => simp [dictInsert]
  | cons q rest ih =>
    obtain ⟨k', v'⟩ := q
    simp only [List.map_cons, List.nodup_cons] at hnd
    by_cases hk : k' = k
    · subst hk
      have hstep : dictInsert k' v ((k', v') :: rest) = (k', v) :: rest := by
        simp [dictInsert]
      rw [hstep]
      simp only [List.map_cons, List.nodup_cons]
      exact hnd
    · simp only [dictInsert, if_neg hk, List.map_cons, List.nodup_cons]
      refine ⟨fun hc => ?_, ih hnd.2⟩
      rcases keys_dictInsert_sub hc with h | h
      · exact hk h
      · exact hnd.1 h

theorem cacheLookup_dictInsert_self {α : Type} (k : Nat) (v : α) (l : List (Nat × α)) :
    cacheLookup k (dictInsert k v l) = some v := by
  induction l with
  | nil => simp [dictInsert, cacheLookup]
  | cons q rest ih =>
    obtain ⟨k', v'⟩ := q
    by_cases hk : k' = k <;> simp [dictInsert, cacheLookup, hk, ih]

theorem cacheLookup_dictInsert_ne {α : Type} {k k' : Nat} (v : α) (l : List (Nat × α))
    (h : k' ≠ k) : cacheLookup k' (dictInsert k v l) = cacheLookup k' l := by
  have h' : ¬ k = k' := fun hc => h hc.symm
  induction l with
  | nil => simp [dictInsert, cacheLookup, h']
  | cons q rest ih =>
    obtain ⟨k'', v''⟩ := q
    by_cases hk : k'' = k
    · subst hk
      simp [dictInsert, cacheLookup, h']
    · simp only [dictInsert, if_neg hk, cacheLookup]
      by_cases hk' : k'' = k' <;> simp [hk', ih]

theorem evictCache_sublist {α : Type} (limit newest : Nat) (l : List (Nat × α)) :
    (evictCache limit newest l).Sublist l := by
  unfold evictCache
  split
  · exact List.nil_sublist l
  · exact List.filter_sublist l

theorem mem_evictCache {α : Type} {limit newest : Nat} {p : Nat × α} {l : List (Nat × α)}
    (hlim : limit ≠ 0) : p ∈ evictCache limit newest l ↔ p ∈ l ∧ newest < p.1 + limit := by
  simp [evictCache, hlim, List.mem_filter]

theorem cacheLookup_evictCache_keep {α : Type} {limit newest k : Nat} {l : List (Nat × α)}
    (hlim : limit ≠ 0) (hkeep : newest < k + limit) :
    cacheLookup k (evictCache limit newest l) = cacheLookup k l := by
  induction l with
  | nil => simp [evictCache, hlim, cacheLookup]
  | cons q rest ih =>
    obtain ⟨k', v'⟩ := q
    by_cases hpred : newest < k' + limit
    · by_cases hk : k' = k <;>
        simp_all [evictCache, hlim, cacheLookup, hpred, hk, List.filter_cons]
    · have hk : k' ≠ k := fun hc => hpred (hc ▸ hkeep)
      simp_all [evictCache, hlim, cacheLookup, hpred, hk, List.filter_cons]

theorem nodup_keys_evictCache {α : Type} {limit newest : Nat} {l : List (Nat × α)}
    (hnd : (l.map Prod.fst).Nodup) : ((evictCache limit newest l).map Prod.fst).Nodup :=
  ((evictCache_sublist limit newest l).map Prod.fst).nodup hnd

theorem cacheLookup_append_of_not_mem {α : Type} {k : Nat} {l₁ l₂ : List (Nat × α)}
    (h : k ∉ l₁.map Prod.fst) : cacheLookup k (l₁ ++ l₂) = cacheLookup k l₂ := by
  induction l₁ with
  | nil => simp
  | cons q rest ih =>
    obtain ⟨k', v'⟩ := q
    simp only [List.map_cons, List.mem_cons] at h
    push_neg at h
    have h1 : ¬ k' = k := fun hc => h.1 hc.symm
    simp [cacheLookup, h1, ih h.2]

/-! ## Lemmas: the bounded streaming cache -/

theorem getFromFreshStream_eq_lookup {α ε : Type} {target : Nat} {items : List (Nat × α)}
    (h : (items.map Prod.fst).Pairwise (· ≤ ·)) :
    getFromFreshStream (ε := ε) target items none = .ok (cacheLookup target items) := by
  induction items with
  | nil => simp [getFromFreshStream, cacheLookup]
  | cons p rest ih =>
    obtain ⟨idx, t⟩ := p
    simp only [List.map_cons, List.pairwise_cons] at h
    by_cases hidx : idx = target
    · subst hidx
      simp [getFromFreshStream, cacheLookup]
    · by_cases hlt : target < idx
      · have hnone : cacheLookup target rest = none := by
          rw [cacheLookup_eq_none_iff]
          intro hc
          have := h.1 _ hc
          omega
        simp [getFromFreshStream, cacheLookup, hidx, hlt, hnone]
      · simp [getFromFreshStream, cacheLookup, hidx, hlt, ih h.2]

/-- The draining loop of `get` on a strictly increasing live Producer suffix:
it never raises, finds exactly what a forward scan of the suffix holds for the
target, consumes a bounded prefix, and preserves the cache invariants
(distinct keys at most the high-water mark, the high-water mark itself always
retained when the window size is positive, live items strictly ahead). -/
theorem drainLoop_sorted_spec {α ε : Type} (target W : Nat) (hW : 1 ≤ W) :
    ∀ (live cache : List (Nat × α)) (maxSeen : Int),
    ((live.map Prod.fst).Pairwise (· < ·)) →
    (∀ p ∈ live, maxSeen < (p.1 : Int)) →
    ((cache.map Prod.fst).Nodup) →
    (∀ p ∈ cache, (p.1 : Int) ≤ maxSeen) →
    (0 ≤ maxSeen → ∃ p ∈ cache, (p.1 : Int) = maxSeen) →
    (cacheLookup target cache = none) →
    ∃ pre live' cache' maxSeen' done',
      drainLoop (ε := ε) target W none live cache maxSeen =
        (.ok (), live', none, cache', maxSeen', done') ∧
      pre ++ live' = live ∧
      (∀ p ∈ pre, (p.1 : Int) ≤ maxSeen') ∧
      cacheLookup target cache' = cacheLookup target live ∧
      ((cache'.map Prod.fst).Nodup) ∧
      (∀ p ∈ cache', p ∈ cache ∨ p ∈ live) ∧
      (∀ p ∈ cache', (p.1 : Int) ≤ maxSeen') ∧
      (0 ≤ maxSeen' → ∃ p ∈ cache', (p.1 : Int) = maxSeen') ∧
      maxSeen ≤ maxSeen' ∧
      (∀ p ∈ live', maxSeen' < (p.1 : Int)) := by
  intro live
  induction live with
  | nil =>
    intro cache maxSeen _hsort _hahead hnd hbound hmax hmiss
    refine ⟨[], [], cache, maxSeen, true, ?_, rfl, by simp, ?_, hnd, ?_, hbound, hmax,
      le_refl _, by simp⟩
    · simp [drainLoop, hmiss]
    · simpa [cacheLookup] using hmiss
    · intro p hp
      exact Or.inl hp
  | cons hd tl ih =>
    intro cache maxSeen hsort hahead hnd hbound hmax hmiss
    obtain ⟨idx, t⟩ := hd
    simp only [List.map_cons, List.pairwise_cons] at hsort
    have haheadidx : maxSeen < (idx : Int) := hahead (idx, t) (List.mem_cons_self _ _)
    have hmaxeq : max maxSeen (idx : Int) = (idx : Int) := max_eq_right haheadidx.le
    have hWne : W ≠ 0 := by omega
    have hstep :
        drainLoop (ε := ε) target W none ((idx, t) :: tl) cache maxSeen =
          drainLoop (ε := ε) target W none tl
            (evictCache W idx (dictInsert idx t cache)) (max maxSeen (idx : Int)) := by
      simp [drainLoop, hmiss]
    set cache1 := evictCache W idx (dictInsert idx t cache) with hcache1
    have hc1mem : ∀ p ∈ cache1, p = (idx, t) ∨ p ∈ cache := by
      intro p hp
      exact mem_dictInsert ((mem_evictCache hWne).mp hp).1
    have hc1nd : (cache1.map Prod.fst).Nodup :=
      nodup_keys_evictCache (nodup_keys_dictInsert hnd)
    have hc1bound : ∀ p ∈ cache1, (p.1 : Int) ≤ (idx : Int) := by
      intro p hp
      rcases hc1mem p hp with h | h
      · rw [h]
      · exact (hbound p h).trans haheadidx.le
    have hidxmem : (idx, t) ∈ cache1 := by
      rw [hcache1, mem_evictCache hWne]
      exact ⟨self_mem_dictInsert idx t cache, by omega⟩
    by_cases hidx : idx = target
    · -- the target was just pulled from the live Producer: the next loop check exits
      subst hidx
      have hfound : cacheLookup idx cache1 = some t := by
        rw [hcache1, cacheLookup_evictCache_keep hWne (by omega)]
        exact cacheLookup_dictInsert_self idx t cache
      have hexit :
          drainLoop (ε := ε) idx W none tl cache1 (max maxSeen (idx : Int)) =
            (.ok (), tl, none, cache1, max maxSeen (idx : Int), false) := by
        rw [drainLoop.eq_def]
        simp [hfound]
      refine ⟨[(idx, t)], tl, cache1, max maxSeen (idx : Int), false,
        hstep.trans hexit, rfl, ?_, ?_, hc1nd, ?_, ?_, ?_, le_max_left _ _, ?_⟩
      · intro p hp
        simp only [List.mem_singleton] at hp
        rw [hp, hmaxeq]
      · rw [hfound]
        simp [cacheLookup]
      · intro p hp
        rcases hc1mem p hp with h | h
        · exact Or.inr (h ▸ List.mem_cons_self _ _)
        · exact Or.inl h
      · intro p hp
        rw [hmaxeq]
        exact hc1bound p hp
      · intro _
        exact ⟨(idx, t), hidxmem, by rw [hmaxeq]⟩
      · intro p hp
        rw [hmaxeq]
        exact_mod_cast hsort.1 p.1 (List.mem_map.mpr ⟨p, hp, rfl⟩)
    · -- head pulled and inserted, the loop keeps draining
      have hmiss1 : cacheLookup target cache1 = none := by
        rw [cacheLookup_eq_none_iff]
        intro hc
        obtain ⟨p, hp, hpt⟩ := List.mem_map.mp hc
        rcases hc1mem p hp with h | h
        · exact hidx (by rw [h] at hpt; exact hpt)
        · rw [cacheLookup_eq_none_iff] at hmiss
          exact hmiss (List.mem_map.mpr ⟨p, h, hpt⟩)
      have := ih cache1 (max maxSeen (idx : Int)) hsort.2
        (by
          intro p hp
          rw [hmaxeq]
          exact_mod_cast hsort.1 p.1 (List.mem_map.mpr ⟨p, hp, rfl⟩))
        hc1nd
        (by
          intro p hp
          rw [hmaxeq]
          exact hc1bound p hp)
        (by
          intro _
          exact ⟨(idx, t), hidxmem, by rw [hmaxeq]⟩)
        hmiss1
      obtain ⟨pre, live', cache', maxSeen', done', heq, hpre, hprele, hlook, hnd', hmem',
        hbound', hmax', hle', hahead'⟩ := this
      have hidxle : (idx : Int) ≤ maxSeen' := by
        rw [← hmaxeq]
        exact hle'
      refine ⟨(idx, t) :: pre, live', cache', maxSeen', done',
        hstep.trans heq, by rw [List.cons_append, hpre], ?_, ?_, hnd', ?_, hbound', hmax',
        haheadidx.le.trans hidxle, hahead'⟩
      · intro p hp
        rcases List.mem_cons.mp hp with h | h
        · rw [h]
          exact hidxle
        · exact hprele p h
      · rw [hlook]
        have h' : ¬ idx = target := hidx
        simp [cacheLookup, h']
      · intro p hp
        rcases hmem' p hp with h | h
        · rcases hc1mem p h with h' | h'
          · exact Or.inr (h' ▸ List.mem_cons_self _ _)
          · exact Or.inl h'
        · exact Or.inr (List.mem_cons_of_mem _ h)

theorem streamInvS_mkStream {α ε : Type} {R : List (Nat × α)} {W : Nat} (hW : 1 ≤ W)
    (hR : (R.map Prod.fst).Pairwise (· < ·)) :
    StreamInvS (mkStream (⟨R, none⟩ : ProducerRun α ε) W) := by
  refine ⟨rfl, rfl, hR, hW, ⟨[], by simp [mkStream], by simp⟩, ?_, by simp [mkStream],
    by simp [mkStream], by simp [mkStream], ?_⟩
  · intro p _
    show (-1 : Int) < (p.1 : Int)
    have : (0 : Int) ≤ (p.1 : Int) := Int.natCast_nonneg _
    omega
  · intro h
    show ∃ p ∈ ([] : List (Nat × α)), (p.1 : Int) = (mkStream (⟨R, none⟩ : ProducerRun α ε) W).maxIndexSeen
    exact absurd h (by simp [mkStream])

/-- One `get` on an invariant-satisfying state returns exactly the value a
full forward scan of one fresh Producer run associates with the target, and
preserves the invariant, the factory and the window size. -/
theorem streamGet_spec {α ε : Type} {s : BolivarTableStream α ε} (hinv : StreamInvS s)
    (target : Nat) :
    (streamGet target s).1 = .ok (cacheLookup target s.factory.items) ∧
    StreamInvS (streamGet target s).2 ∧
    (streamGet target s).2.factory = s.factory := by
  have hndR : (s.factory.items.map Prod.fst).Nodup :=
    hinv.sortedRun.imp (fun h => Nat.ne_of_lt h)
  rcases hhit : cacheLookup target s.cache with _ | t
  · by_cases hbr : ((target : Int) < s.maxIndexSeen ∨ s.done = true)
    · -- bounded replay from a brand-new Producer run
      have hget : streamGet target s =
          (getFromFreshStream target s.factory.items s.factory.err, s) := by
        simp [streamGet, hhit, hbr]
      rw [hget, hinv.pureRun]
      exact ⟨getFromFreshStream_eq_lookup (hinv.sortedRun.imp le_of_lt), hinv, rfl⟩
    · -- drain the live Producer
      have hsortlive : (s.liveItems.map Prod.fst).Pairwise (· < ·) := by
        obtain ⟨pre, hpre, _⟩ := hinv.liveSuffix
        have hsub : s.liveItems.Sublist s.factory.items := by
          rw [← hpre]
          exact List.sublist_append_right pre s.liveItems
        exact hinv.sortedRun.sublist (hsub.map Prod.fst)
      obtain ⟨pre, live', cache', maxSeen', done', heq, hpre, hprele, hlook, hnd', hmem',
        hbound', hmax', hle', hahead'⟩ :=
        drainLoop_sorted_spec (ε := ε) target s.cacheLimit hinv.limitPos s.liveItems s.cache
          s.maxIndexSeen hsortlive hinv.liveAhead hinv.cacheNodup hinv.cacheBound
          hinv.maxMem hhit
      have hget : streamGet target s =
          (.ok (cacheLookup target cache'),
           { s with liveItems := live', liveErr := none, cache := cache',
                    maxIndexSeen := maxSeen', done := done' }) := by
        rw [streamGet, hhit]
        simp only [if_neg hbr]
        rw [hinv.liveNoErr, heq]
      obtain ⟨pre0, hpre0, hpre0le⟩ := hinv.liveSuffix
      have htargetnotpre0 : target ∉ pre0.map Prod.fst := by
        intro hc
        obtain ⟨p, hp, hpt⟩ := List.mem_map.mp hc
        have h1 : (target : Int) ≤ s.maxIndexSeen := hpt ▸ hpre0le p hp
        have h2 : ¬ (target : Int) < s.maxIndexSeen := fun hlt => hbr (Or.inl hlt)
        have h3 : (target : Int) = s.maxIndexSeen := le_antisymm h1 (not_lt.mp h2)
        obtain ⟨q, hq, hqeq⟩ := hinv.maxMem (h3 ▸ Int.natCast_nonneg target)
        have : q.1 = target := by
          have := hqeq.trans h3.symm
          exact_mod_cast this
        rw [cacheLookup_eq_none_iff] at hhit
        exact hhit (List.mem_map.mpr ⟨q, hq, this⟩)
      have hlookitems : cacheLookup target s.liveItems = cacheLookup target s.factory.items := by
        rw [← hpre0, cacheLookup_append_of_not_mem htargetnotpre0]
      refine ⟨by rw [hget, hlook, hlookitems], ?_, by rw [hget]⟩
      rw [hget]
      refine ⟨hinv.pureRun, rfl, hinv.sortedRun, hinv.limitPos, ?_, hahead', ?_, hnd',
        hbound', hmax'⟩
      · refine ⟨pre0 ++ pre, ?_, ?_⟩
        · show (pre0 ++ pre) ++ live' = s.factory.items
          rw [List.append_assoc, hpre, hpre0]
        · intro p hp
          rcases List.mem_append.mp hp with h | h
          · exact (hpre0le p h).trans hle'
          · exact hprele p h
      · intro p hp
        rcases hmem' p hp with h | h
        · exact hinv.cacheAgree p h
        · have hpitems : p ∈ s.factory.items := by
            rw [← hpre0]
            exact List.mem_append_right pre0 h
          exact cacheLookup_eq_some_of_mem hpitems hndR
  · -- cache hit
    have hmem := mem_of_cacheLookup_eq_some hhit
    have hag := hinv.cacheAgree _ hmem
    have hget : streamGet target s = (.ok (some t), s) := by
      simp [streamGet, hhit]
    rw [hget]
    exact ⟨by rw [hag], hinv, rfl⟩

/-- Any finite sequence of `get` calls on an invariant-satisfying state
returns, callwise, the full-forward-scan results, and preserves the
invariant. -/
theorem runGets_spec {α ε : Type} {s : BolivarTableStream α ε} (hinv : StreamInvS s)
    (calls : List Nat) :
    (runGets calls s).1 = calls.map (fun i => Except.ok (cacheLookup i s.factory.items)) ∧
    StreamInvS (runGets calls s).2 ∧
    (runGets calls s).2.factory = s.factory := by
  induction calls generalizing s with
  | nil => exact ⟨rfl, hinv, rfl⟩
  | cons c cs ih =>
    obtain ⟨h1, h2, h3⟩ := streamGet_spec hinv c
    obtain ⟨ih1, ih2, ih3⟩ := ih h2
    refine ⟨?_, ih2, by rw [show (runGets (c :: cs) s).2 = (runGets cs (streamGet c s).2).2 from rfl, ih3, h3]⟩
    show (streamGet c s).1 :: (runGets cs (streamGet c s).2).1 =
      Except.ok (cacheLookup c s.factory.items) ::
        cs.map (fun i => Except.ok (cacheLookup i s.factory.items))
    rw [h1, ih1, h3]

/-- A list of pairs with distinct keys all lying in a half-open integer window
of width `W` has at most `W` entries. -/
theorem length_le_of_keys_window {α : Type} {l : List (Nat × α)} {m : Int} {W : Nat}
    (hnd : (l.map Prod.fst).Nodup)
    (hwin : ∀ p ∈ l, (p.1 : Int) ≤ m ∧ m < (p.1 : Int) + W) :
    l.length ≤ W := by
  cases l with
  | nil => simp
  | cons q rest =>
    have hm0 : 0 ≤ m := by
      have := (hwin q (List.mem_cons_self _ _)).1
      have : (0 : Int) ≤ (q.1 : Int) := Int.natCast_nonneg _
      omega
    set l' := q :: rest
    set keys := l'.map Prod.fst with hkeys
    have hsub : keys.toFinset ⊆ Finset.Ico (m.toNat + 1 - W) (m.toNat + 1) := by
      intro k hk
      rw [List.mem_toFinset] at hk
      obtain ⟨p, hp, hpk⟩ := List.mem_map.mp hk
      obtain ⟨h1, h2⟩ := hwin p hp
      rw [Finset.mem_Ico]
      subst hpk
      omega
    have hcard := Finset.card_le_card hsub
    rw [Nat.card_Ico] at hcard
    have hlen : keys.toFinset.card = keys.length := List.toFinset_card_of_nodup hnd
    have hkl : keys.length = l'.length := List.length_map _ _
    omega

theorem streamInvB_mkStream {α ε : Type} {R : ProducerRun α ε} {W : Nat}
    (hR : (R.items.map Prod.fst).Pairwise (· ≤ ·)) :
    StreamInvB (mkStream R W) := by
  refine ⟨hR, ?_, by simp [mkStream], by simp [mkStream]⟩
  intro p _
  show (-1 : Int) ≤ (p.1 : Int)
  have : (0 : Int) ≤ (p.1 : Int) := Int.natCast_nonneg _
  omega

/-- The draining loop preserves the windowed-cache invariant whatever its
outcome (target found, exhaustion, or a raised Producer exception). -/
theorem drainLoop_window {α ε : Type} {target W : Nat} :
    ∀ (live cache : List (Nat × α)) (maxSeen : Int) (lerr : Option ε),
    ((live.map Prod.fst).Pairwise (· ≤ ·)) →
    (∀ p ∈ live, maxSeen ≤ (p.1 : Int)) →
    ((cache.map Prod.fst).Nodup) →
    (∀ p ∈ cache, (p.1 : Int) ≤ maxSeen ∧ maxSeen < (p.1 : Int) + W) →
    ∀ outcome live' lerr' cache' maxSeen' done',
      drainLoop (ε := ε) target W lerr live cache maxSeen =
        (outcome, live', lerr', cache', maxSeen', done') →
      ((cache'.map Prod.fst).Nodup) ∧
      (∀ p ∈ cache', (p.1 : Int) ≤ maxSeen' ∧ maxSeen' < (p.1 : Int) + W) ∧
      ((live'.map Prod.fst).Pairwise (· ≤ ·)) ∧
      (∀ p ∈ live', maxSeen' ≤ (p.1 : Int)) := by
  intro live
  induction live with
  | nil =>
    intro cache maxSeen lerr hsort hahead hnd hwin outcome live' lerr' cache' maxSeen' done' heq
    rw [drainLoop.eq_def] at heq
    by_cases hhit : (cacheLookup target cache).isSome
    · simp only [if_pos hhit] at heq
      obtain ⟨-, rfl, -, rfl, rfl, -⟩ := Prod.mk.injEq .. ▸ heq
      exact ⟨hnd, hwin, hsort, hahead⟩
    · simp only [if_neg hhit] at heq
      cases lerr with
      | some e =>
        simp only at heq
        obtain ⟨-, rfl, -, rfl, rfl, -⟩ := Prod.mk.injEq .. ▸ heq
        exact ⟨hnd, hwin, by simp, by simp⟩
      | none =>
        simp only at heq
        obtain ⟨-, rfl, -, rfl, rfl, -⟩ := Prod.mk.injEq .. ▸ heq
        exact ⟨hnd, hwin, by simp, by simp⟩
  | cons hd tl ih =>
    intro cache maxSeen lerr hsort hahead hnd hwin outcome live' lerr' cache' maxSeen' done' heq
    obtain ⟨idx, t⟩ := hd
    rw [drainLoop.eq_def] at heq
    by_cases hhit : (cacheLookup target cache).isSome
    · simp only [if_pos hhit] at heq
      obtain ⟨-, rfl, -, rfl, rfl, -⟩ := Prod.mk.injEq .. ▸ heq
      exact ⟨hnd, hwin, hsort, hahead⟩
    · simp only [if_neg hhit] at heq
      simp only [List.map_cons, List.pairwise_cons] at hsort
      have haheadidx : maxSeen ≤ (idx : Int) := hahead (idx, t) (List.mem_cons_self _ _)
      have hmaxeq : max maxSeen (idx : Int) = (idx : Int) := max_eq_right haheadidx
      set cache1 := evictCache W idx (dictInsert idx t cache) with hcache1
      have hnd1 : (cache1.map Prod.fst).Nodup :=
        nodup_keys_evictCache (nodup_keys_dictInsert hnd)
      have hwin1 : ∀ p ∈ cache1,
          (p.1 : Int) ≤ max maxSeen (idx : Int) ∧
            max maxSeen (idx : Int) < (p.1 : Int) + W := by
        intro p hp
        by_cases hW0 : W = 0
        · rw [hcache1, hW0] at hp
          simp [evictCache] at hp
        · obtain ⟨hpd, hpw⟩ := (mem_evictCache hW0).mp hp
          rw [hmaxeq]
          refine ⟨?_, by exact_mod_cast hpw⟩
          rcases mem_dictInsert hpd with h | h
          · rw [h]
          · exact ((hwin p h).1).trans haheadidx
      exact ih cache1 (max maxSeen (idx : Int)) lerr hsort.2
        (by
          intro p hp
          rw [hmaxeq]
          exact_mod_cast hsort.1 p.1 (List.mem_map.mpr ⟨p, hp, rfl⟩))
        hnd1 hwin1 outcome live' lerr' cache' maxSeen' done' heq

/-- One `get` preserves the windowed-cache invariant and the window size. -/
theorem streamGet_window {α ε : Type} {s : BolivarTableStream α ε} (hinv : StreamInvB s)
    (target : Nat) :
    StreamInvB (streamGet target s).2 ∧ (streamGet target s).2.cacheLimit = s.cacheLimit := by
  rcases hhit : cacheLookup target s.cache with _ | t
  · by_cases hbr : ((target : Int) < s.maxIndexSeen ∨ s.done = true)
    · have hget : (streamGet target s).2 = s := by
        simp [streamGet, hhit, hbr]
      rw [hget]
      exact ⟨hinv, rfl⟩
    · obtain ⟨outcome, live', lerr', cache', maxSeen', done', hdl⟩ :
          ∃ o l e c m d, drainLoop (ε := ε) target s.cacheLimit s.liveErr s.liveItems
            s.cache s.maxIndexSeen = (o, l, e, c, m, d) :=
        ⟨_, _, _, _, _, _, rfl⟩
      obtain ⟨hnd', hwin', hsort', hahead'⟩ :=
        drainLoop_window s.liveItems s.cache s.maxIndexSeen s.liveErr hinv.sortedLive
          hinv.liveAhead hinv.cacheNodup hinv.cacheWindow outcome live' lerr' cache'
          maxSeen' done' hdl
      have hget : (streamGet target s).2 =
          { s with liveItems := live', liveErr := lerr', cache := cache',
                   maxIndexSeen := maxSeen', done := done' } := by
        rw [streamGet, hhit]
        simp only [if_neg hbr]
        rw [hdl]
        cases outcome <;> rfl
      rw [hget]
      exact ⟨⟨hsort', hahead', hnd', hwin'⟩, rfl⟩
  · have hget : (streamGet target s).2 = s := by
      simp [streamGet, hhit]
    rw [hget]
    exact ⟨hinv, rfl⟩

/-- Any finite call sequence preserves the windowed-cache invariant and the
window size. -/
theorem runGets_window {α ε : Type} {s : BolivarTableStream α ε} (hinv : StreamInvB s)
    (calls : List Nat) :
    StreamInvB (runGets calls s).2 ∧ (runGets calls s).2.cacheLimit = s.cacheLimit := by
  induction calls generalizing s with
  | nil => exact ⟨hinv, rfl⟩
  | cons c cs ih =>
    obtain ⟨h1, h2⟩ := streamGet_window hinv c
    obtain ⟨ih1, ih2⟩ := ih h1
    exact ⟨ih1, ih2.trans h2⟩

/-- The draining loop on a live Producer that raises after its remaining
items, none of which carries the target index: the exception is re-raised and
the `done` flag is left unset. -/
theorem drainLoop_error {α ε : Type} {target W : Nat} {e : ε} :
    ∀ (live cache : List (Nat × α)) (maxSeen : Int),
    cacheLookup target cache = none →
    target ∉ live.map Prod.fst →
    ∃ cache' maxSeen',
      drainLoop (ε := ε) target W (some e) live cache maxSeen =
        (.error e, [], none, cache', maxSeen', false) := by
  intro live
  induction live with
  | nil =>
    intro cache maxSeen hmiss _
    refine ⟨cache, maxSeen, ?_⟩
    rw [drainLoop.eq_def]
    simp [hmiss]
  | cons hd tl ih =>
    intro cache maxSeen hmiss hnotin
    obtain ⟨idx, t⟩ := hd
    simp only [List.map_cons, List.mem_cons] at hnotin
    push_neg at hnotin
    have hidx : idx ≠ target := fun hc => hnotin.1 hc.symm
    have hmiss1 : cacheLookup target (evictCache W idx (dictInsert idx t cache)) = none := by
      rw [cacheLookup_eq_none_iff]
      intro hc
      obtain ⟨p, hp, hpt⟩ := List.mem_map.mp hc
      rcases mem_dictInsert ((evictCache_sublist W idx _).mem hp) with h | h
      · exact hidx (by rw [h] at hpt; exact hpt)
      · rw [cacheLookup_eq_none_iff] at hmiss
        exact hmiss (List.mem_map.mpr ⟨p, h, hpt⟩)
    obtain ⟨cache', maxSeen', hrec⟩ :=
      ih (evictCache W idx (dictInsert idx t cache)) (max maxSeen (idx : Int)) hmiss1 hnotin.2
    refine ⟨cache', maxSeen', ?_⟩
    rw [drainLoop.eq_def]
    simp only [hmiss, Option.isSome_none, Bool.false_eq_true, if_false]
    exact hrec

/-! ## Lemmas: Python `max(…, key=…)` -/

theorem pyMaxBy_mem (f : Table → Nat) (t : Table) (ts : Tables) :
    pyMaxBy f t ts ∈ t :: ts := by
  induction ts generalizing t with
  | nil => simp [pyMaxBy]
  | cons x xs ih =>
    have h := ih (if f t < f x then x else t)
    rcases List.mem_cons.mp h with h' | h'
    · rw [pyMaxBy, h']
      by_cases hfx : f t < f x <;> simp [hfx]
    · rw [pyMaxBy]
      exact List.mem_cons_of_mem _ (List.mem_cons_of_mem _ h')

theorem pyMaxBy_le (f : Table → Nat) (t : Table) (ts : Tables) :
    ∀ u ∈ t :: ts, f u ≤ f (pyMaxBy f t ts) := by
  induction ts generalizing t with
  | nil =>
    intro u hu
    rw [List.mem_singleton.mp hu]
    simp [pyMaxBy]
  | cons x xs ih =>
    intro u hu
    have hbest : f (if f t < f x then x else t) ≤ f (pyMaxBy f t (x :: xs)) := by
      rw [pyMaxBy]
      exact ih _ _ (List.mem_cons_self _ _)
    rcases List.mem_cons.mp hu with h | h
    · subst h
      refine le_trans ?_ hbest
      by_cases hfx : f u < f x
      · simp [hfx]
        omega
      · simp [hfx]
    · rcases List.mem_cons.mp h with h' | h'
      · subst h'
        refine le_trans ?_ hbest
        by_cases hfx : f t < f u
        · simp [hfx]
        · simp [hfx]
          omega
      · rw [pyMaxBy]
        exact ih _ u (List.mem_cons_of_mem _ h')

/-! ## Claims C1, C2, C9, C10: the bounded streaming cache -/

/-- C1 (counterexample to the claim as stated): a pure Producer run may have
*non-decreasing* (not strictly increasing) indices, i.e. duplicates.  For the
run `(0,0), (0,1), (1,2)` with window `W = 2`, the call sequence
`get(1); get(0)` answers `some 1` for index `0` (the later duplicate payload,
retained while draining past it), while a single full forward scan associates
index `0` with its first yield `some 0` — so results are not those of a full
forward scan and do depend on the access pattern.  Moreover with window
`W = 0` (also a constructible instance, since the constructor only clamps the
limit at zero) even `get(0)` on the one-item run `(0,5)` answers `none`
instead of the scanned `some 5`. -/
theorem replay_correctness_counterexample :
    ¬ ((runGets [1, 0] (mkStream (⟨[(0, 0), (0, 1), (1, 2)], none⟩ : ProducerRun Nat Unit)
          2)).1 =
        [1, 0].map fun i => Except.ok (cacheLookup i [(0, 0), (0, 1), (1, 2)])) ∧
    ¬ ((runGets [0] (mkStream (⟨[(0, 5)], none⟩ : ProducerRun Nat Unit) 0)).1 =
        [0].map fun i => Except.ok (cacheLookup i [(0, 5)])) := by
  constructor
  · intro h
    simp only [List.map_cons, List.map_nil] at h
    exact absurd h (by decide)
  · intro h
    simp only [List.map_cons, List.map_nil] at h
    exact absurd h (by decide)

/-- C1 (amended): for every bounded streaming cache over a pure Producer
factory whose run yields *strictly increasing* page indices, with eviction
window `W ≥ 1`, and for every finite sequence of `get(i)` calls in any order
(repeats and backward jumps included), each call returns exactly the
`TableSet` a single full forward scan of one Producer run associates with `i`
(`cacheLookup i R`), and absence (`none`) when the Producer never yields `i`.
The original claim required only non-decreasing indices and placed no bound on
`W`; the counterexample forces both strengthenings. -/
theorem replay_correctness {α ε : Type} (R : List (Nat × α)) (W : Nat) (hW : 1 ≤ W)
    (hR : (R.map Prod.fst).Pairwise (· < ·)) (calls : List Nat) :
    (runGets calls (mkStream (⟨R, none⟩ : ProducerRun α ε) W)).1 =
      calls.map fun i => Except.ok (cacheLookup i R) :=
  (runGets_spec (streamInvS_mkStream hW hR) calls).1

/-- C1 witness: the spec's concrete scenario — a 5-page Producer yielding
`(0,T0)…(4,T4)` with `W = 2`; `get(4)` then `get(0)` return `T4` then `T0`
(the second resolved by replay, index 0 having left the window). -/
theorem replay_correctness_witness :
    (runGets [4, 0] (mkStream
        (⟨[(0, 10), (1, 11), (2, 12), (3, 13), (4, 14)], none⟩ : ProducerRun Nat Unit) 2)).1 =
      [Except.ok (some 14), Except.ok (some 10)] := by
  rw [replay_correctness [(0, 10), (1, 11), (2, 12), (3, 13), (4, 14)] 2 (by decide)
    (by decide) [4, 0]]
  decide

/-- C2: for every `_BolivarTableStream` with eviction window `W ≥ 1` over a
Producer yielding page indices in non-decreasing order (duplicates allowed,
exceptions allowed), after any finite sequence of `get` calls the retained
entry map `_cache` holds at most `W` entries; since every state reached
between calls is the state after some finite call sequence, the bound holds in
every such state. -/
theorem cache_bound_invariant {α ε : Type} (R : ProducerRun α ε) (W : Nat) (_hW : 1 ≤ W)
    (hR : (R.items.map Prod.fst).Pairwise (· ≤ ·)) (calls : List Nat) :
    ((runGets calls (mkStream R W)).2).cache.length ≤ W := by
  obtain ⟨hinv, hlim⟩ := runGets_window (streamInvB_mkStream hR) calls
  have hlim' : (runGets calls (mkStream R W)).2.cacheLimit = W := hlim
  refine length_le_of_keys_window (m := (runGets calls (mkStream R W)).2.maxIndexSeen)
    hinv.cacheNodup ?_
  intro p hp
  have := hinv.cacheWindow p hp
  rw [hlim'] at this
  exact this

/-- C2 witness: after `get(4); get(0)` on the 5-page Producer with `W = 2`,
the retained map has at most 2 entries. -/
theorem cache_bound_invariant_witness :
    ((runGets [4, 0] (mkStream
        (⟨[(0, 10), (1, 11), (2, 12), (3, 13), (4, 14)], none⟩ : ProducerRun Nat Unit)
        2)).2).cache.length ≤ 2 :=
  cache_bound_invariant ⟨[(0, 10), (1, 11), (2, 12), (3, 13), (4, 14)], none⟩ 2 (by decide)
    (by decide) [4, 0]

/-- C9: if pulling from the live Producer inside `get` raises (the live run
has `items` left, none carrying the target, and then raises `e` instead of
exhausting), the exception propagates unchanged to the caller of `get`, the
`done`/Exhausted flag remains unset, and the pure factory is untouched (so a
later `get` can still replay the same pull range from a fresh run); the cache
neither swallows nor retries the error. -/
theorem producer_error_atomicity {α ε : Type} (s : BolivarTableStream α ε) (target : Nat)
    (e : ε)
    (hdone : s.done = false)
    (hmiss : cacheLookup target s.cache = none)
    (hseen : ¬ ((target : Int) < s.maxIndexSeen))
    (herr : s.liveErr = some e)
    (hnotin : target ∉ s.liveItems.map Prod.fst) :
    ∃ s', streamGet target s = (.error e, s') ∧ s'.done = false ∧ s'.factory = s.factory := by
  obtain ⟨cache', maxSeen', hrec⟩ :=
    drainLoop_error (W := s.cacheLimit) s.liveItems s.cache s.maxIndexSeen hmiss hnotin
  have hbr : ¬ ((target : Int) < s.maxIndexSeen ∨ s.done = true) := by
    intro h
    rcases h with h | h
    · exact hseen h
    · rw [hdone] at h
      cases h
  refine ⟨{ s with liveItems := [], liveErr := none, cache := cache', maxIndexSeen := maxSeen', done := false }, ?_, rfl, rfl⟩
  rw [streamGet, hmiss]
  simp only [if_neg hbr]
  rw [herr, hrec]

/-- C9 witness: the Producer yields `(0, 7)` and then raises; `get(5)`
re-raises the error and leaves `done` unset. -/
theorem producer_error_atomicity_witness :
    ¬ ((0 : Int) < -1) ∧
    ∃ s', streamGet 5 (mkStream (⟨[(0, 7)], some "boom"⟩ : ProducerRun Nat String) 2) =
      (.error "boom", s') ∧ s'.done = false ∧
      s'.factory = (mkStream (⟨[(0, 7)], some "boom"⟩ : ProducerRun Nat String) 2).factory := by
  refine ⟨by decide, ?_⟩
  have h5 : ¬ ((5 : Int) < (mkStream (⟨[(0, 7)], some "boom"⟩ : ProducerRun Nat String)
      2).maxIndexSeen) := by decide
  exact producer_error_atomicity (mkStream (⟨[(0, 7)], some "boom"⟩ : ProducerRun Nat String) 2)
    5 "boom" rfl rfl h5 rfl (by decide)

/-- C10 (implicit): the patched `extract_tables` never returns `None` — when
the streaming cache's `get` answers `None` (the page index is absent from the
Producer's output) it returns the empty list — and the patched
`extract_table` returns `None` exactly when that list is empty, otherwise a
table maximizing the total cell count `sum(len(row) for row in table)`. -/
theorem extract_tables_never_none {ε : Type} (s : BolivarTableStream Tables ε) (i : Nat) :
    ((streamGet i s).1 = .ok none → (extractTablesFromPage i s).1 = .ok []) ∧
    (∀ ts, (extractTablesFromPage i s).1 = .ok ts →
      (((extractTable i s).1 = .ok none) ↔ ts = []) ∧
      (ts ≠ [] → ∃ t, (extractTable i s).1 = .ok (some t) ∧ t ∈ ts ∧
        ∀ u ∈ ts, tableCellCount u ≤ tableCellCount t)) := by
  obtain ⟨r, s', hg⟩ : ∃ r s', streamGet i s = (r, s') := ⟨_, _, rfl⟩
  cases r with
  | ok o =>
    have hext : extractTablesFromPage i s = (.ok (o.getD []), s') := by
      rw [extractTablesFromPage, hg]
    constructor
    · intro ho
      rw [hg] at ho
      simp only at ho
      obtain rfl : o = none := by
        cases o with
        | none => rfl
        | some t => cases ho
      rw [hext]
      rfl
    · intro ts hts
      rw [hext] at hts
      simp only at hts
      obtain rfl : ts = o.getD [] := by
        cases hts
        rfl
      cases hogd : o.getD [] with
      | nil =>
        have hetab : extractTable i s = (.ok none, s') := by
          rw [extractTable, hext, hogd]
        rw [hetab]
        exact ⟨by simp, fun h => absurd rfl h⟩
      | cons t ts' =>
        have hetab : extractTable i s = (.ok (some (pyMaxBy tableCellCount t ts')), s') := by
          rw [extractTable, hext, hogd]
        rw [hetab]
        refine ⟨by simp, fun _ => ⟨pyMaxBy tableCellCount t ts', rfl, ?_, ?_⟩⟩
        · exact pyMaxBy_mem tableCellCount t ts'
        · exact pyMaxBy_le tableCellCount t ts'
  | error e =>
    have hext : extractTablesFromPage i s = (.error e, s') := by
      rw [extractTablesFromPage, hg]
    constructor
    · intro ho
      rw [hg] at ho
      cases ho
    · intro ts hts
      rw [hext] at hts
      cases hts

/-- C10 witness: on the Producer yielding only page 1, `extract_tables` for
page 0 returns the empty list (not `None`), and `extract_table` for page 1
does not return `None` (its table set is nonempty). -/
theorem extract_tables_never_none_witness :
    (extractTablesFromPage 0 (mkStream
        (⟨[(1, [[[some "x"], [none, none]]])], none⟩ : ProducerRun Tables Unit) 2)).1 =
      .ok [] ∧
    ¬ ((extractTable 1 (mkStream
        (⟨[(1, [[[some "x"], [none, none]]])], none⟩ : ProducerRun Tables Unit) 2)).1 =
      .ok none) := by
  constructor
  · exact (extract_tables_never_none (mkStream
      (⟨[(1, [[[some "x"], [none, none]]])], none⟩ : ProducerRun Tables Unit) 2) 0).1
      (by decide)
  · intro hc
    have h2 := ((extract_tables_never_none (mkStream
      (⟨[(1, [[[some "x"], [none, none]]])], none⟩ : ProducerRun Tables Unit) 2) 1).2
      [[[some "x"], [none, none]]] (by decide)).1
    have := h2.mp hc
    cases this

/-! ## Lemmas: geometry tracker -/

theorem baseDoctops_length (bs : List BBox) (r : Rat) :
    (baseDoctops bs r).length = bs.length := by
  induction bs generalizing r with
  | nil => rfl
  | cons b tl ih => simp [baseDoctops, ih]

theorem baseDoctops_get? (bs : List BBox) (r : Rat) :
    ∀ i, i < bs.length →
      (baseDoctops bs r).get? i = some (r + ((bs.take i).map boxHeight).sum) := by
  induction bs generalizing r with
  | nil => intro i hi; cases hi
  | cons b tl ih =>
    intro i hi
    cases i with
    | zero => simp [baseDoctops]
    | succ j =>
      have hj : j < tl.length := by simpa using hi
      rw [show baseDoctops (b :: tl) r = r :: baseDoctops tl (r + (b.c3 - b.c1)) from rfl,
        List.get?_cons_succ, ih (r + (b.c3 - b.c1)) j hj]
      congr 1
      rw [List.take_succ_cons, List.map_cons, List.sum_cons, boxHeight]
      ring

theorem baseDoctops_mono (bs : List BBox) (hpos : ∀ b ∈ bs, 0 ≤ boxHeight b) :
    ∀ r, (baseDoctops bs r).Pairwise (· ≤ ·) ∧ ∀ x ∈ baseDoctops bs r, r ≤ x := by
  induction bs with
  | nil => intro r; simp [baseDoctops]
  | cons b tl ih =>
    intro r
    have hb : 0 ≤ boxHeight b := hpos b (List.mem_cons_self _ _)
    have ihtl := ih (fun b' hb' => hpos b' (List.mem_cons_of_mem _ hb')) (r + (b.c3 - b.c1))
    constructor
    · rw [baseDoctops, List.pairwise_cons]
      refine ⟨fun x hx => ?_, ihtl.1⟩
      have := ihtl.2 x hx
      rw [boxHeight] at hb
      linarith
    · intro x hx
      rcases List.mem_cons.mp hx with h | h
      · rw [h]
      · have := ihtl.2 x h
        rw [boxHeight] at hb
        linarith

theorem baseGeometries_map_doctop (boxes : List BBox) :
    (baseGeometries boxes).map PageGeometry.doctop = baseDoctops boxes 0 := by
  rw [baseGeometries, List.map_map]
  have hlen : boxes.length = (baseDoctops boxes 0).length := (baseDoctops_length boxes 0).symm
  have : (PageGeometry.doctop ∘ fun p : BBox × Rat => PageGeometry.mk p.1 p.1 p.2 false) =
      Prod.snd := rfl
  rw [this]
  exact List.map_snd_zip boxes (baseDoctops boxes 0) (le_of_eq hlen.symm)

/-! ## Claims C6, C7: the geometry tracker -/

/-- C6: for every document whose page mediaboxes each have non-negative height
(`box[3] >= box[1]`), the geometry list `_base_geometries` returns satisfies:
the doctop sequence is monotonically non-decreasing in page index, each doctop
equals the sum of the heights of all preceding pages, and `doctop[0] == 0`
when there is at least one page. -/
theorem base_geometries_doctops (boxes : List BBox)
    (hpos : ∀ b ∈ boxes, b.c1 ≤ b.c3) :
    ((baseGeometries boxes).map PageGeometry.doctop).Pairwise (· ≤ ·) ∧
    (∀ i, i < boxes.length →
      ((baseGeometries boxes).map PageGeometry.doctop).get? i =
        some (((boxes.take i).map boxHeight).sum)) ∧
    (boxes ≠ [] → ((baseGeometries boxes).map PageGeometry.doctop).get? 0 = some 0) := by
  have hpos' : ∀ b ∈ boxes, 0 ≤ boxHeight b := by
    intro b hb
    have := hpos b hb
    rw [boxHeight]
    linarith
  rw [baseGeometries_map_doctop]
  refine ⟨(baseDoctops_mono boxes hpos' 0).1, fun i hi => ?_, fun hne => ?_⟩
  · rw [baseDoctops_get? boxes 0 i hi]
    congr 1
    ring
  · have h0 : 0 < boxes.length := List.length_pos.mpr hne
    rw [baseDoctops_get? boxes 0 0 h0]
    simp

/-- C6 witness: two pages of heights 20 and 25; doctops are 0 and 20, in
non-decreasing order. -/
theorem base_geometries_doctops_witness :
    ((baseGeometries [⟨0, 0, 10, 20⟩, ⟨0, 5, 10, 25⟩]).map PageGeometry.doctop).get? 0 =
      some 0 ∧
    ((baseGeometries [⟨0, 0, 10, 20⟩, ⟨0, 5, 10, 25⟩]).map PageGeometry.doctop).get? 1 =
      some 20 := by
  have h := base_geometries_doctops [⟨0, 0, 10, 20⟩, ⟨0, 5, 10, 25⟩] (by
    intro b hb
    rcases List.mem_cons.mp hb with h' | h'
    · rw [h']
      norm_num
    · rw [List.mem_singleton.mp h']
      norm_num)
  refine ⟨h.2.2 (by simp), ?_⟩
  rw [h.2.1 1 (by norm_num)]
  simp [boxHeight]

/-- C7: `_build_geometries` is a pure function of `base` (it copies, never
mutates): the returned list has the same length as `base` and equals it at
every index other than `page_index`; when `page_index` is in range, the entry
there is the observed page geometry if that differs from the canonical entry
and the canonical entry itself otherwise; when `page_index` is out of range
the result is exactly `base`.  So at most one entry reflects the override. -/
theorem build_geometries_frame (pageIndex : Int) (p : PageView) (base : List PageGeometry) :
    ((buildGeometries pageIndex p base).length = base.length) ∧
    (∀ j : Nat, (j : Int) ≠ pageIndex →
      (buildGeometries pageIndex p base).get? j = base.get? j) ∧
    (0 ≤ pageIndex → pageIndex < (base.length : Int) →
      (base.get? pageIndex.toNat ≠ some (pageGeom p) →
        (buildGeometries pageIndex p base).get? pageIndex.toNat = some (pageGeom p)) ∧
      (base.get? pageIndex.toNat = some (pageGeom p) →
        (buildGeometries pageIndex p base).get? pageIndex.toNat = base.get? pageIndex.toNat)) ∧
    (¬ (0 ≤ pageIndex ∧ pageIndex < (base.length : Int)) →
      buildGeometries pageIndex p base = base) := by
  by_cases hcond : 0 ≤ pageIndex ∧ pageIndex < (base.length : Int) ∧
      base.get? pageIndex.toNat ≠ some (pageGeom p)
  · have hbuild : buildGeometries pageIndex p base = base.set pageIndex.toNat (pageGeom p) := by
      rw [buildGeometries]
      simp only [if_pos hcond]
    have hlt : pageIndex.toNat < base.length := by omega
    refine ⟨by rw [hbuild, List.length_set], fun j hj => ?_, fun h0 _ => ?_, fun hc => ?_⟩
    · have hjne : pageIndex.toNat ≠ j := by omega
      rw [hbuild, List.get?_set_ne _ _ hjne]
    · refine ⟨fun _ => ?_, fun heq => absurd heq hcond.2.2⟩
      rw [hbuild, List.get?_set_eq_of_lt _ hlt]
    · exact absurd ⟨hcond.1, hcond.2.1⟩ hc
  · have hbuild : buildGeometries pageIndex p base = base := by
      rw [buildGeometries]
      simp only [if_neg hcond]
    refine ⟨by rw [hbuild], fun j _ => by rw [hbuild], fun h0 hn => ?_, fun _ => hbuild⟩
    have heq : base.get? pageIndex.toNat = some (pageGeom p) := by
      by_contra hne
      exact hcond ⟨h0, hn, hne⟩
    exact ⟨fun hne => absurd heq hne, fun _ => by rw [hbuild]⟩

/-- C7 witness: overriding index 1 of a two-entry base with a differing
observed geometry changes exactly that entry and leaves index 0 canonical;
index 5 (out of range) is the identity. -/
theorem build_geometries_frame_witness :
    (buildGeometries 1 ⟨⟨1, 1, 2, 2⟩, ⟨0, 0, 9, 9⟩, 3, false⟩
        [⟨⟨0, 0, 9, 9⟩, ⟨0, 0, 9, 9⟩, 0, false⟩, ⟨⟨0, 0, 9, 9⟩, ⟨0, 0, 9, 9⟩, 9, false⟩]).get? 0 =
      some ⟨⟨0, 0, 9, 9⟩, ⟨0, 0, 9, 9⟩, 0, false⟩ ∧
    (buildGeometries 1 ⟨⟨1, 1, 2, 2⟩, ⟨0, 0, 9, 9⟩, 3, false⟩
        [⟨⟨0, 0, 9, 9⟩, ⟨0, 0, 9, 9⟩, 0, false⟩, ⟨⟨0, 0, 9, 9⟩, ⟨0, 0, 9, 9⟩, 9, false⟩]).get? 1 =
      some ⟨⟨1, 1, 2, 2⟩, ⟨0, 0, 9, 9⟩, 3, true⟩ ∧
    buildGeometries 5 ⟨⟨1, 1, 2, 2⟩, ⟨0, 0, 9, 9⟩, 3, false⟩
        [⟨⟨0, 0, 9, 9⟩, ⟨0, 0, 9, 9⟩, 0, false⟩] =
      [⟨⟨0, 0, 9, 9⟩, ⟨0, 0, 9, 9⟩, 0, false⟩] := by
  have h1 := build_geometries_frame 1 ⟨⟨1, 1, 2, 2⟩, ⟨0, 0, 9, 9⟩, 3, false⟩
    [⟨⟨0, 0, 9, 9⟩, ⟨0, 0, 9, 9⟩, 0, false⟩, ⟨⟨0, 0, 9, 9⟩, ⟨0, 0, 9, 9⟩, 9, false⟩]
  have h2 := build_geometries_frame 5 ⟨⟨1, 1, 2, 2⟩, ⟨0, 0, 9, 9⟩, 3, false⟩
    [⟨⟨0, 0, 9, 9⟩, ⟨0, 0, 9, 9⟩, 0, false⟩]
  refine ⟨?_, ?_, ?_⟩
  · rw [h1.2.1 0 (by decide)]
    rfl
  · have := (h1.2.2.1 (by decide) (by decide)).1 (by decide)
    rw [show ((1 : Int).toNat) = 1 from rfl] at this
    rw [this]
    rfl
  · exact h2.2.2.2 (by decide)

/-! ## Lemmas: patch installation -/

/-- After any application of the patch, the `extract_tables` override carries
the `_bolivar_patched` marker and the `PDF.pages` getter is an installed,
marked property getter. -/
theorem applyPatch_marks (s : PdfplumberState) :
    (applyPatch s).2.extractTablesFn.bolivarPatched = true ∧
    (∃ g, (applyPatch s).2.pagesGetter = some g ∧ g.bolivarPatched = true) := by
  simp only [applyPatch]
  repeat' split
  all_goals simp_all

/-- Applying the patch to a state whose `extract_tables` marker is set and
whose `PDF.pages` getter is already marked: the capability overrides are left
untouched (identical function objects) and the call reports success. -/
theorem applyPatch_already (s : PdfplumberState)
    (h1 : s.extractTablesFn.bolivarPatched = true)
    (h2 : ∃ g, s.pagesGetter = some g ∧ g.bolivarPatched = true) :
    (applyPatch s).1 = true ∧
    (applyPatch s).2.extractTablesFn = s.extractTablesFn ∧
    (applyPatch s).2.extractTableFn = s.extractTableFn := by
  obtain ⟨g, hg, hgm⟩ := h2
  obtain ⟨et, etf, pg, cf, ha, rf, ni⟩ := s
  simp only at h1 hg ⊢
  subst hg
  rcases cf with _ | f
  · by_cases hha : ha <;> simp [applyPatch, h1, hgm, hha]
  · by_cases hf : f.bolivarPatched <;> by_cases hha : ha <;>
      simp [applyPatch, h1, hgm, hf, hha]

/-! ## Claim C4: patch idempotence -/

/-- C4: a second invocation of the patch-application path on an
already-patched module set is a no-op for the capability overrides — the
`_bolivar_patched` marker remains set, `Page.extract_tables` and
`Page.extract_table` are the identical function objects before and after the
second invocation (no duplicate wrapping), and the invocation reports
success.  `s0` is arbitrary: the first invocation leaves the module patched,
whatever the starting state. -/
theorem patch_idempotence (s0 : PdfplumberState) :
    (applyPatch (applyPatch s0).2).1 = true ∧
    (applyPatch (applyPatch s0).2).2.extractTablesFn = (applyPatch s0).2.extractTablesFn ∧
    (applyPatch (applyPatch s0).2).2.extractTableFn = (applyPatch s0).2.extractTableFn ∧
    (applyPatch (applyPatch s0).2).2.extractTablesFn.bolivarPatched = true := by
  obtain ⟨hm, hg⟩ := applyPatch_marks s0
  obtain ⟨ha, hb, hc⟩ := applyPatch_already _ hm hg
  refine ⟨ha, hb, hc, ?_⟩
  rw [hb]
  exact hm

/-! ## Lemmas: lazy page collection -/

theorem keys_subset_dictInsert {α : Type} (k : Nat) (v : α) (l : List (Nat × α)) :
    ∀ a ∈ l.map Prod.fst, a ∈ (dictInsert k v l).map Prod.fst := by
  intro a ha
  by_cases hak : a = k
  · subst hak
    exact List.mem_map.mpr ⟨(a, v), self_mem_dictInsert a v l, rfl⟩
  · by_contra hc
    rw [← cacheLookup_eq_none_iff, cacheLookup_dictInsert_ne v l hak,
      cacheLookup_eq_none_iff] at hc
    exact hc ha

theorem ensureDoctops_ok {c c1 : LazyPages} (h : ensureDoctops c = .ok c1) :
    c1.pageCache = c.pageCache ∧ c1.pageNumbers = c.pageNumbers ∧
    c1.nextId = c.nextId ∧ c1.doc = c.doc := by
  rw [ensureDoctops] at h
  cases hd : c.doctops with
  | some ds =>
    rw [hd] at h
    simp only at h
    cases h
    exact ⟨rfl, rfl, rfl, rfl⟩
  | none =>
    rw [hd] at h
    simp only at h
    cases hf : filteredDoctops c.doc.mediaboxes c.pageNumbers 0 with
    | error e =>
      rw [hf] at h
      cases h
    | ok ds =>
      rw [hf] at h
      cases h
      exact ⟨rfl, rfl, rfl, rfl⟩

theorem aiterLazyPages_ok {c : LazyPages} {ps : List PageWrapper} {c' : LazyPages}
    (h : aiterLazyPages c = .ok (ps, c')) :
    c'.pageCache = c.pageCache ∧ c'.pageNumbers = c.pageNumbers := by
  rw [aiterLazyPages] at h
  cases hens : ensureDoctops c with
  | error e =>
    rw [hens] at h
    cases h
  | ok c1 =>
    rw [hens] at h
    simp only at h
    obtain ⟨-, h2⟩ := Prod.mk.injEq .. ▸ (Except.ok.injEq .. ▸ h)
    obtain ⟨hc, hn, -, -⟩ := ensureDoctops_ok hens
    rw [← h2]
    exact ⟨hc, hn⟩

theorem lazyGetItem_ok {c : LazyPages} {i : Int} {p : PageWrapper} {c' : LazyPages}
    (h : lazyGetItem c i = .ok (p, c')) :
    c'.pageNumbers = c.pageNumbers ∧
    (∀ k ∈ c.pageCache.map Prod.fst, k ∈ c'.pageCache.map Prod.fst) ∧
    (0 ≤ i → i < (c.pageNumbers.length : Int) →
      c.pageNumbers.getD i.toNat 0 ∈ c'.pageCache.map Prod.fst) := by
  rw [lazyGetItem] at h
  by_cases hrange : ((if i < 0 then i + c.pageNumbers.length else i) < 0 ∨
      (c.pageNumbers.length : Int) ≤ (if i < 0 then i + c.pageNumbers.length else i))
  · rw [if_pos hrange] at h
    cases h
  · rw [if_neg hrange] at h
    cases hens : ensureDoctops c with
    | error e =>
      rw [hens] at h
      cases h
    | ok c1 =>
      rw [hens] at h
      simp only at h
      obtain ⟨hc, hn, hni, _hd⟩ := ensureDoctops_ok hens
      have hnonneg : ¬ i < 0 → (if i < 0 then i + c.pageNumbers.length else i) = i := by
        intro hi
        rw [if_neg hi]
      cases hlook : cacheLookup (c1.pageNumbers.getD
          (if i < 0 then i + c.pageNumbers.length else i).toNat 0) c1.pageCache with
      | some w =>
        rw [hlook] at h
        cases h
        refine ⟨hn, fun k hk => by rw [hc]; exact hk, fun h0 _ => ?_⟩
        have hi : ¬ i < 0 := not_lt.mpr h0
        rw [hc, hn, hnonneg hi] at hlook
        rw [hc]
        exact List.mem_map.mpr ⟨_, mem_of_cacheLookup_eq_some hlook, rfl⟩
      | none =>
        rw [hlook] at h
        cases h
        refine ⟨hn, fun k hk => ?_, fun h0 _ => ?_⟩
        · show k ∈ (dictInsert _ _ c1.pageCache).map Prod.fst
          rw [hc]
          exact keys_subset_dictInsert _ _ _ k hk
        · have hi : ¬ i < 0 := not_lt.mpr h0
          have hK : c1.pageNumbers.getD
              (if i < 0 then i + (c.pageNumbers.length : Int) else i).toNat 0 =
                c.pageNumbers.getD i.toNat 0 := by
            rw [hn, hnonneg hi]
          rw [← hK]
          exact List.mem_map.mpr ⟨_, self_mem_dictInsert _ _ _, rfl⟩

theorem syncIterList_keys (js : List Nat) :
    ∀ (c : LazyPages) (ps : List PageWrapper) (c'' : LazyPages),
    syncIterList js c = .ok (ps, c'') →
    c''.pageNumbers = c.pageNumbers ∧
    (∀ k ∈ c.pageCache.map Prod.fst, k ∈ c''.pageCache.map Prod.fst) ∧
    (∀ j ∈ js, j < c.pageNumbers.length →
      c.pageNumbers.getD j 0 ∈ c''.pageCache.map Prod.fst) := by
  induction js with
  | nil =>
    intro c ps c'' h
    rw [syncIterList] at h
    cases h
    exact ⟨rfl, fun k hk => hk, by simp⟩
  | cons j js ih =>
    intro c ps c'' h
    rw [syncIterList] at h
    cases hget : lazyGetItem c (j : Int) with
    | error e =>
      rw [hget] at h
      cases h
    | ok pc =>
      obtain ⟨p, c'⟩ := pc
      rw [hget] at h
      simp only at h
      cases hrest : syncIterList js c' with
      | error e =>
        rw [hrest] at h
        cases h
      | ok psc =>
        obtain ⟨ps', cfin⟩ := psc
        rw [hrest] at h
        simp only at h
        obtain ⟨-, h2⟩ := Prod.mk.injEq .. ▸ (Except.ok.injEq .. ▸ h)
        subst h2
        obtain ⟨g1, g2, g3⟩ := lazyGetItem_ok hget
        obtain ⟨i1, i2, i3⟩ := ih c' ps' cfin hrest
        refine ⟨i1.trans g1, fun k hk => i2 k (g2 k hk), ?_⟩
        intro j' hj' hlt
        rcases List.mem_cons.mp hj' with h' | h'
        · subst h'
          have := g3 (by omega) (by exact_mod_cast hlt)
          exact i2 _ this
        · have := i3 j' h' (by rw [g1]; exact hlt)
          rw [g1] at this
          exact this

/-! ## Claim C5: asynchronous iteration and the memo map -/

/-- C5 (counterexample to the claim as stated): the async generator *does*
consult the memo map — `__aiter__` reads `self._page_cache.get(page_index)`
and yields the memoized wrapper when present.  Two collections over the same
one-page document, identical except that the second holds a memoized wrapper
(object identity 999) for page 0, yield different pages: the first resolves a
fresh wrapper (identity 0), the second yields the cached one — so the yielded
pages are not independent of the memo map's contents.  (Both traversals leave
the memo map itself unchanged.) -/
theorem lazy_aiter_consults_memo :
    aiterLazyPages ⟨⟨[⟨0, 0, 10, 20⟩]⟩, [0], [], none, 0⟩ =
      .ok ([⟨0, 0, 1, 0⟩], ⟨⟨[⟨0, 0, 10, 20⟩]⟩, [0], [], some [0], 0⟩) ∧
    aiterLazyPages ⟨⟨[⟨0, 0, 10, 20⟩]⟩, [0], [(0, ⟨999, 0, 1, 0⟩)], none, 0⟩ =
      .ok ([⟨999, 0, 1, 0⟩], ⟨⟨[⟨0, 0, 10, 20⟩]⟩, [0], [(0, ⟨999, 0, 1, 0⟩)], some [0], 0⟩) := by
  exact ⟨rfl, rfl⟩

/-- C5 (amended): a full asynchronous traversal never *populates* the memo
map — the memo map afterwards is exactly what it was before (in particular,
empty when it was empty before) — and uncached pages are resolved fresh from
the Document Engine without being memoized; however the traversal does
*consult* the memo map, yielding a memoized wrapper when one is present.  By
contrast, a full synchronous traversal populates the memo map with every
filtered page index. -/
theorem lazy_aiter_never_populates (c : LazyPages) :
    (∀ ps c', aiterLazyPages c = .ok (ps, c') → c'.pageCache = c.pageCache) ∧
    (c.pageCache = [] → ∀ ps c', aiterLazyPages c = .ok (ps, c') → c'.pageCache = []) ∧
    (∀ ps c'', lazyPagesToList c = .ok (ps, c'') →
      ∀ pi ∈ c.pageNumbers, pi ∈ c''.pageCache.map Prod.fst) := by
  refine ⟨fun ps c' h => (aiterLazyPages_ok h).1,
    fun hemp ps c' h => by rw [(aiterLazyPages_ok h).1, hemp],
    fun ps c'' h pi hpi => ?_⟩
  obtain ⟨-, -, h3⟩ := syncIterList_keys (List.range c.pageNumbers.length) c ps c'' h
  obtain ⟨j, hget⟩ := List.mem_iff_get.mp hpi
  have hj : (j : Nat) < c.pageNumbers.length := j.isLt
  have hgd : c.pageNumbers.getD (j : Nat) 0 = pi := by
    rw [List.getD_eq_get _ _ hj]
    exact hget
  have := h3 (j : Nat) (List.mem_range.mpr hj) hj
  rw [hgd] at this
  exact this

/-- C5 witness: on a fresh two-page collection the async traversal leaves the
memo map empty while the sync traversal populates it with both page
indices. -/
theorem lazy_aiter_never_populates_witness :
    (∀ ps c', aiterLazyPages ⟨⟨[⟨0, 0, 10, 20⟩, ⟨0, 5, 10, 25⟩]⟩, [0, 1], [], none, 0⟩ =
        .ok (ps, c') → c'.pageCache = []) ∧
    (∀ ps c'', lazyPagesToList ⟨⟨[⟨0, 0, 10, 20⟩, ⟨0, 5, 10, 25⟩]⟩, [0, 1], [], none, 0⟩ =
        .ok (ps, c'') → 0 ∈ c''.pageCache.map Prod.fst ∧ 1 ∈ c''.pageCache.map Prod.fst) := by
  have h := lazy_aiter_never_populates ⟨⟨[⟨0, 0, 10, 20⟩, ⟨0, 5, 10, 25⟩]⟩, [0, 1], [], none, 0⟩
  refine ⟨fun ps c' ha => h.2.1 rfl ps c' ha, fun ps c'' hs => ?_⟩
  exact ⟨h.2.2 ps c'' hs 0 (by decide), h.2.2 ps c'' hs 1 (by decide)⟩

/-! ## Lemmas: the key normalizer's sort -/

theorem keyLt_trans {a b c : NormVal} (h1 : keyLt a b) (h2 : keyLt b c) : keyLt a c :=
  lt_trans h1 h2

theorem headKeyStr_eq_some {p : NormVal} {k : String} (h : headKeyStr p = some k) :
    ∃ r, p = .tup (.scalar (.str k) :: r) := by
  unfold headKeyStr at h
  split at h
  · rename_i k' r
    cases h
    exact ⟨r, rfl⟩
  · cases h

/-- Python `<` on two normalized pairs whose head keys are distinct strings:
the head comparison decides (the values are never compared). -/
theorem normLt_str_pairs {ka kb : String} (ra rb : List NormVal) (hne : ka ≠ kb) :
    normLt (.tup (.scalar (.str ka) :: ra)) (.tup (.scalar (.str kb) :: rb)) =
      .ok (decide (ka < kb)) := by
  have hsc : (NormVal.scalar (.str ka)) ≠ (NormVal.scalar (.str kb)) := by
    intro hc
    injection hc with h
    injection h with h'
    exact hne h'
  show tupLt (.scalar (.str ka) :: ra) (.scalar (.str kb) :: rb) = .ok (decide (ka < kb))
  rw [tupLt, if_neg hsc]
  rfl

/-- Inserting into a sorted list of string-keyed pairs with pairwise-distinct
keys: no comparison raises, and the result is a sorted permutation. -/
theorem sortedInsert_spec (x : NormVal) :
    ∀ l : List NormVal,
    (∀ p ∈ x :: l, (headKeyStr p).isSome) →
    ((x :: l).map (fun p => (headKeyStr p).getD "")).Nodup →
    l.Pairwise keyLt →
    ∃ r, sortedInsert x l = .ok r ∧ r.Perm (x :: l) ∧ r.Pairwise keyLt := by
  intro l
  induction l with
  | nil =>
    intro _ _ _
    exact ⟨[x], rfl, List.Perm.refl _, by simp⟩
  | cons y ys ih =>
    intro hkeys hnd hsorted
    obtain ⟨kx, hkx⟩ := Option.isSome_iff_exists.mp (hkeys x (by simp))
    obtain ⟨ky, hky⟩ := Option.isSome_iff_exists.mp (hkeys y (by simp))
    obtain ⟨rx, hxeq⟩ := headKeyStr_eq_some hkx
    obtain ⟨ry, hyeq⟩ := headKeyStr_eq_some hky
    have hkxy : kx ≠ ky := by
      intro hc
      simp only [List.map_cons, List.nodup_cons, List.mem_cons, List.mem_map] at hnd
      exact hnd.1 (Or.inl (by rw [hkx, hky, hc]))
    have hkeyx : keyLt x y ↔ kx < ky := by
      rw [keyLt, hkx, hky]
      exact Iff.rfl
    have hcmp : normLt x y = .ok (decide (kx < ky)) := by
      rw [hxeq, hyeq]
      exact normLt_str_pairs rx ry hkxy
    by_cases hlt : kx < ky
    · refine ⟨x :: y :: ys, ?_, List.Perm.refl _, ?_⟩
      · rw [sortedInsert, hcmp, decide_eq_true hlt]
      · rw [List.pairwise_cons]
        refine ⟨fun z hz => ?_, hsorted⟩
        rcases List.mem_cons.mp hz with h | h
        · rw [h]
          exact hkeyx.mpr hlt
        · have h1 : keyLt x y := hkeyx.mpr hlt
          have h2 : keyLt y z := (List.pairwise_cons.mp hsorted).1 z h
          exact keyLt_trans h1 h2
    · have hylt : keyLt y x := by
        rw [keyLt, hkx, hky]
        exact lt_of_le_of_ne (not_lt.mp hlt) (fun hc => hkxy hc.symm)
      have hkeys' : ∀ p ∈ x :: ys, (headKeyStr p).isSome := by
        intro p hp
        rcases List.mem_cons.mp hp with h | h
        · exact hkeys p (h ▸ List.mem_cons_self _ _)
        · exact hkeys p (List.mem_cons_of_mem _ (List.mem_cons_of_mem _ h))
      have hnd' : ((x :: ys).map (fun p => (headKeyStr p).getD "")).Nodup := by
        have hsub : ((x :: ys).map (fun p => (headKeyStr p).getD "")).Sublist
            (((x :: y :: ys)).map (fun p => (headKeyStr p).getD "")) := by
          simp only [List.map_cons]
          exact List.Sublist.cons₂ _ (List.sublist_cons_self _ _)
        exact hsub.nodup hnd
      obtain ⟨zs, hzs, hperm, hsort'⟩ := ih hkeys' hnd' (List.pairwise_cons.mp hsorted).2
      refine ⟨y :: zs, ?_, ?_, ?_⟩
      · rw [sortedInsert, hcmp, decide_eq_false hlt, hzs]
      · exact (hperm.cons y).trans (List.Perm.swap x y ys)
      · rw [List.pairwise_cons]
        refine ⟨fun z hz => ?_, hsort'⟩
        have hzmem : z ∈ x :: ys := hperm.mem_iff.mp hz
        rcases List.mem_cons.mp hzmem with h | h
        · rw [h]
          exact hylt
        · exact (List.pairwise_cons.mp hsorted).1 z h

/-- Python `sorted` on string-keyed pairs with pairwise-distinct keys
succeeds and returns a sorted permutation of its input. -/
theorem sortPairs_spec :
    ∀ l : List NormVal,
    (∀ p ∈ l, (headKeyStr p).isSome) →
    (l.map (fun p => (headKeyStr p).getD "")).Nodup →
    ∃ r, sortPairs l = .ok r ∧ r.Perm l ∧ r.Pairwise keyLt := by
  intro l
  induction l with
  | nil => intro _ _; exact ⟨[], rfl, List.Perm.refl _, by simp⟩
  | cons x xs ih =>
    intro hkeys hnd
    obtain ⟨s, hs, hsperm, hssort⟩ := ih
      (fun p hp => hkeys p (List.mem_cons_of_mem _ hp))
      ((List.map_cons .. ▸ hnd).of_cons)
    have hkeys' : ∀ p ∈ x :: s, (headKeyStr p).isSome := by
      intro p hp
      rcases List.mem_cons.mp hp with h | h
      · exact hkeys p (h ▸ List.mem_cons_self _ _)
      · exact hkeys p (List.mem_cons_of_mem _ (hsperm.mem_iff.mp h))
    have hnd' : ((x :: s).map (fun p => (headKeyStr p).getD "")).Nodup := by
      have hperm2 : ((x :: s).map (fun p => (headKeyStr p).getD "")).Perm
          ((x :: xs).map (fun p => (headKeyStr p).getD "")) :=
        (hsperm.cons x).map _
      exact hperm2.nodup_iff.mpr hnd
    obtain ⟨r, hr, hrperm, hrsort⟩ := sortedInsert_spec x s hkeys' hnd' hssort
    refine ⟨r, ?_, ?_, hrsort⟩
    · rw [sortPairs, hs]
      exact hr
    · exact hrperm.trans (hsperm.cons x)

/-- Two sorted permutations of string-keyed pairs coincide. -/
theorem sorted_perm_unique {l m : List NormVal} (hperm : l.Perm m)
    (hl : l.Pairwise keyLt) (hm : m.Pairwise keyLt) : l = m := by
  haveI : IsAntisymm NormVal keyLt :=
    ⟨fun a b h1 h2 => absurd (lt_trans h1 h2) (lt_irrefl _)⟩
  exact List.eq_of_perm_of_sorted hperm hl hm

/-- `sorted` is permutation-invariant on string-keyed pairs with distinct
keys. -/
theorem sortPairs_perm_eq {l m : List NormVal} (hperm : l.Perm m)
    (hkeys : ∀ p ∈ l, (headKeyStr p).isSome)
    (hnd : (l.map (fun p => (headKeyStr p).getD "")).Nodup) :
    sortPairs l = sortPairs m := by
  obtain ⟨r, hr, hrperm, hrsort⟩ := sortPairs_spec l hkeys hnd
  obtain ⟨r', hr', hrperm', hrsort'⟩ := sortPairs_spec m
    (fun p hp => hkeys p (hperm.mem_iff.mpr hp))
    ((hperm.map _).nodup_iff.mp hnd)
  have : r = r' := sorted_perm_unique (hrperm.trans (hperm.trans hrperm'.symm)) hrsort hrsort'
  rw [hr, hr', this]

/-! ## Lemmas: normalizer totality on string-keyed values -/

/-- The normalized pairs of a string-keyed dict all carry string head keys,
and those keys are distinct. -/
theorem normalizeEntries_keyFacts {es : List (Scalar × PyVal)} {ps : List NormVal}
    (hkeys : ∀ p ∈ es, ∃ s, p.1 = Scalar.str s)
    (hnd : (es.map Prod.fst).Nodup)
    (hmap : ps.map headKeyStr = es.map (fun q => some (keyStrOfScalar q.1))) :
    (∀ p ∈ ps, (headKeyStr p).isSome) ∧
    (ps.map (fun p => (headKeyStr p).getD "")).Nodup := by
  have hkeysome : ∀ p ∈ ps, (headKeyStr p).isSome := by
    intro p hp
    have hmem : headKeyStr p ∈ ps.map headKeyStr := List.mem_map_of_mem _ hp
    rw [hmap] at hmem
    obtain ⟨q, _, hqe⟩ := List.mem_map.mp hmem
    rw [← hqe]
    rfl
  have hmapkeys : ps.map (fun p => (headKeyStr p).getD "") =
      (es.map Prod.fst).map keyStrOfScalar := by
    have h1 : ps.map (fun p => (headKeyStr p).getD "") =
        (ps.map headKeyStr).map (fun o => o.getD "") := by
      rw [List.map_map]
      rfl
    rw [h1, hmap, List.map_map, List.map_map]
    rfl
  refine ⟨hkeysome, ?_⟩
  rw [hmapkeys]
  refine hnd.map_on ?_
  intro a ha b hb hab
  obtain ⟨pa, hpa, hpa1⟩ := List.mem_map.mp ha
  obtain ⟨pb, hpb, hpb1⟩ := List.mem_map.mp hb
  obtain ⟨sa, hsa⟩ := hkeys pa hpa
  obtain ⟨sb, hsb⟩ := hkeys pb hpb
  rw [← hpa1, ← hpb1, hsa, hsb] at hab ⊢
  rw [keyStrOfScalar, keyStrOfScalar] at hab
  rw [hab]

mutual

theorem normalizeKey_total_aux : ∀ v : PyVal, StrDictsWF v → ∃ n, normalizeKey v = .ok n
  | .scalar s, _ => ⟨.scalar s, rfl⟩
  | .arr es, hwf => by
    have hes : ∀ e ∈ es, StrDictsWF e := by
      cases hwf with
      | arr h => exact h
    obtain ⟨ns, hns⟩ := normalizeList_total_aux es hes
    exact ⟨.tup ns, by rw [normalizeKey, hns]⟩
  | .dict entries, hwf => by
    obtain ⟨hkeys, hvals, hnd⟩ :
        (∀ p ∈ entries, ∃ s, p.1 = Scalar.str s) ∧ (∀ p ∈ entries, StrDictsWF p.2) ∧
          (entries.map Prod.fst).Nodup := by
      cases hwf with
      | dict h1 h2 h3 => exact ⟨h1, h2, h3⟩
    obtain ⟨ps, hps, hmap⟩ := normalizeEntries_total_aux entries hkeys hvals
    obtain ⟨hkeysome, hndk⟩ := normalizeEntries_keyFacts hkeys hnd hmap
    obtain ⟨r, hr, -, -⟩ := sortPairs_spec ps hkeysome hndk
    exact ⟨.tup r, by simp only [normalizeKey, hps, hr]⟩

theorem normalizeList_total_aux : ∀ vs : List PyVal, (∀ e ∈ vs, StrDictsWF e) →
    ∃ ns, normalizeList vs = .ok ns
  | [], _ => ⟨[], rfl⟩
  | v :: vs, h => by
    obtain ⟨n, hn⟩ := normalizeKey_total_aux v (h v (List.mem_cons_self _ _))
    obtain ⟨ns, hns⟩ := normalizeList_total_aux vs (fun e he => h e (List.mem_cons_of_mem _ he))
    exact ⟨n :: ns, by rw [normalizeList, hn, hns]⟩

theorem normalizeEntries_total_aux : ∀ es : List (Scalar × PyVal),
    (∀ p ∈ es, ∃ s, p.1 = Scalar.str s) → (∀ p ∈ es, StrDictsWF p.2) →
    ∃ ps, normalizeEntries es = .ok ps ∧
      ps.map headKeyStr = es.map (fun q => some (keyStrOfScalar q.1))
  | [], _, _ => ⟨[], rfl, rfl⟩
  | (k, v) :: es, hk, hv => by
    obtain ⟨n, hn⟩ := normalizeKey_total_aux v (hv (k, v) (List.mem_cons_self _ _))
    obtain ⟨ps, hps, hmap⟩ := normalizeEntries_total_aux es
      (fun p hp => hk p (List.mem_cons_of_mem _ hp))
      (fun p hp => hv p (List.mem_cons_of_mem _ hp))
    refine ⟨.tup [.scalar k, n] :: ps, by rw [normalizeEntries, hn, hps], ?_⟩
    obtain ⟨s, hs⟩ := hk (k, v) (List.mem_cons_self _ _)
    simp only at hs
    simp only [List.map_cons, hmap, hs]
    rfl

end

/-! ## Claim C8: normalizer totality -/

/-- C8 (counterexample to the claim as stated): `_normalize_key` is *not*
total on arbitrary nested values.  On the two-entry mapping
`{0: "a", "b": 0}` the `sorted` call must compare the pair `(0, …)` with the
pair `("b", …)`; since the keys `0` and `"b"` differ, Python tuple comparison
applies `<` to them, and `int < str` raises `TypeError` — whatever comparison
sort `sorted` uses, a two-element sort performs this one comparison. -/
theorem normalize_key_total_counterexample :
    normalizeKey (.dict [(.int 0, .scalar (.str "a")), (.str "b", .scalar (.int 0))]) =
      .error () := by
  decide

/-- C8 (amended): `_normalize_key` is total on every value — arbitrarily
nested mappings, sequences and scalars, `None` included — whose mappings are
string-keyed (with the distinct keys every Python dict has): on such input it
returns a canonical key and never raises.  The original claim over *all*
values fails because comparing keys of incomparable types inside `sorted`
raises `TypeError`. -/
theorem normalize_key_total (v : PyVal) (hwf : StrDictsWF v) :
    ∃ n, normalizeKey v = .ok n :=
  normalizeKey_total_aux v hwf

/-- C8 witness: a nested string-keyed configuration (with a `None` value and
a nested list and mapping) normalizes without raising. -/
theorem normalize_key_total_witness :
    ∃ n, normalizeKey (.dict [(.str "b", .arr [.scalar (.int 2), .scalar .none_]),
      (.str "a", .dict [(.str "x", .scalar (.str "y"))])]) = .ok n := by
  refine normalize_key_total _ ?_
  refine StrDictsWF.dict ?_ ?_ ?_
  · intro p hp
    rcases List.mem_cons.mp hp with h | h
    · exact ⟨"b", by rw [h]⟩
    · rw [List.mem_singleton.mp h]
      exact ⟨"a", rfl⟩
  · intro p hp
    rcases List.mem_cons.mp hp with h | h
    · rw [h]
      exact StrDictsWF.arr (by
        intro e he
        rcases List.mem_cons.mp he with h' | h'
        · rw [h']; exact StrDictsWF.scalar _
        · rw [List.mem_singleton.mp h']; exact StrDictsWF.scalar _)
    · rw [List.mem_singleton.mp h]
      refine StrDictsWF.dict ?_ ?_ ?_
      · intro q hq
        rw [List.mem_singleton.mp hq]
        exact ⟨"x", rfl⟩
      · intro q hq
        rw [List.mem_singleton.mp hq]
        exact StrDictsWF.scalar _
      · decide
  · decide

/-! ## Lemmas: normalizer order-insensitivity for mappings -/

/-- Normalizing the materialized `(key, normalized value)` generator commutes
with permuting the dict entries: a permuted entry list normalizes to a
permutation of the normalized pairs (and succeeds iff the original does). -/
theorem normalizeEntries_perm {bs cs : List (Scalar × PyVal)} (hperm : bs.Perm cs) :
    ∀ ps, normalizeEntries bs = .ok ps →
    ∃ qs, normalizeEntries cs = .ok qs ∧ ps.Perm qs := by
  induction hperm with
  | nil =>
    intro ps h
    exact ⟨ps, h, List.Perm.refl _⟩
  | cons x hl ih =>
    rename_i l₁ l₂
    intro ps h
    obtain ⟨k, v⟩ := x
    rw [normalizeEntries] at h
    cases hn : normalizeKey v with
    | error e =>
      rw [hn] at h
      cases h
    | ok n =>
      rw [hn] at h
      simp only at h
      cases hrest : normalizeEntries l₁ with
      | error e =>
        rw [hrest] at h
        cases h
      | ok ps' =>
        rw [hrest] at h
        simp only at h
        cases h
        obtain ⟨qs', hqs', hp⟩ := ih ps' hrest
        refine ⟨.tup [.scalar k, n] :: qs', ?_, hp.cons _⟩
        rw [normalizeEntries, hn, hqs']
  | swap x y l =>
    intro ps h
    obtain ⟨kx, vx⟩ := x
    obtain ⟨ky, vy⟩ := y
    rw [normalizeEntries] at h
    cases hny : normalizeKey vy with
    | error e =>
      rw [hny] at h
      cases h
    | ok ny =>
      rw [hny] at h
      simp only at h
      rw [normalizeEntries] at h
      cases hnx : normalizeKey vx with
      | error e =>
        rw [hnx] at h
        cases h
      | ok nx =>
        rw [hnx] at h
        simp only at h
        cases hrest : normalizeEntries l with
        | error e =>
          rw [hrest] at h
          cases h
        | ok rs =>
          rw [hrest] at h
          simp only at h
          cases h
          refine ⟨.tup [.scalar kx, nx] :: .tup [.scalar ky, ny] :: rs, ?_, ?_⟩
          · rw [normalizeEntries, hnx]
            simp only
            rw [normalizeEntries, hny]
            simp only
            rw [hrest]
          · exact List.Perm.swap _ _ _
  | trans _ _ ih1 ih2 =>
    intro ps h
    obtain ⟨qs, hqs, hp⟩ := ih1 ps h
    obtain ⟨rs, hrs, hp2⟩ := ih2 qs hqs
    exact ⟨rs, hrs, hp.trans hp2⟩

mutual

theorem permEquiv_normalizeKey : ∀ {a b : PyVal}, StrDictsWF a → PermEquiv a b →
    normalizeKey a = normalizeKey b
  | _, _, _, .scalar s => rfl
  | .arr as, .arr bs, hwf, .arr hlist => by
    have hes : ∀ e ∈ as, StrDictsWF e := by
      cases hwf with
      | arr h => exact h
    rw [normalizeKey, normalizeKey, permEquivList_normalizeList hes hlist]
  | .dict as, .dict cs, hwf, .dict hent hperm => by
    obtain ⟨hkeys, hvals, hnd⟩ :
        (∀ p ∈ as, ∃ s, p.1 = Scalar.str s) ∧ (∀ p ∈ as, StrDictsWF p.2) ∧
          (as.map Prod.fst).Nodup := by
      cases hwf with
      | dict h1 h2 h3 => exact ⟨h1, h2, h3⟩
    have heq := permEquivEntries_normalizeEntries hvals hent
    obtain ⟨ps, hps, hmap⟩ := normalizeEntries_total_aux as hkeys hvals
    obtain ⟨hkeysome, hndk⟩ := normalizeEntries_keyFacts hkeys hnd hmap
    have hbs : normalizeEntries _ = .ok ps := heq ▸ hps
    obtain ⟨qs, hqs, hpqs⟩ := normalizeEntries_perm hperm ps hbs
    have hsort : sortPairs ps = sortPairs qs := sortPairs_perm_eq hpqs hkeysome hndk
    simp only [normalizeKey, hps, hqs, hsort]

theorem permEquivList_normalizeList : ∀ {as bs : List PyVal},
    (∀ e ∈ as, StrDictsWF e) → PermEquivList as bs →
    normalizeList as = normalizeList bs
  | _, _, _, .nil => rfl
  | a :: as, b :: bs, h, .cons hab hrest => by
    rw [normalizeList, normalizeList,
      permEquiv_normalizeKey (h a (List.mem_cons_self _ _)) hab,
      permEquivList_normalizeList (fun e he => h e (List.mem_cons_of_mem _ he)) hrest]

theorem permEquivEntries_normalizeEntries : ∀ {ps qs : List (Scalar × PyVal)},
    (∀ p ∈ ps, StrDictsWF p.2) → PermEquivEntries ps qs →
    normalizeEntries ps = normalizeEntries qs
  | _, _, _, .nil => rfl
  | (k, a) :: ps, (_, b) :: qs, h, .cons hab hrest => by
    rw [normalizeEntries, normalizeEntries,
      permEquiv_normalizeKey (h (k, a) (List.mem_cons_self _ _)) hab,
      permEquivEntries_normalizeEntries (fun p hp => h p (List.mem_cons_of_mem _ hp)) hrest]

end

/-! ## Claim C3: normalization order-insensitivity -/

/-- C3 (counterexample to the claim as stated): `_normalize_key` is *not*
insensitive to permutations of array (sequence) elements — sequences become
tuples of normalized elements *in their original order*.  `[1, 2]` and
`[2, 1]` are permutations of one another but normalize to distinct keys. -/
theorem normalize_order_insensitive_counterexample :
    ([PyVal.scalar (.int 1), .scalar (.int 2)]).Perm
      [PyVal.scalar (.int 2), .scalar (.int 1)] ∧
    normalizeKey (.arr [.scalar (.int 1), .scalar (.int 2)]) ≠
      normalizeKey (.arr [.scalar (.int 2), .scalar (.int 1)]) :=
  ⟨by decide, by decide⟩

/-- C3 (amended): `_normalize_key` is order-insensitive for *mappings* (not
arrays): for every pair of string-keyed configuration values that are equal
up to permutation of mapping entries at any nesting depth — array elements
kept in order — the normalized keys are equal, so both configurations select
the same `BoundedStreamingCache`.  Array-element permutation, claimed
order-insensitive as well, changes the key (see the counterexample). -/
theorem normalize_order_insensitive_mappings (a b : PyVal) (hwf : StrDictsWF a)
    (hequiv : PermEquiv a b) : normalizeKey a = normalizeKey b :=
  permEquiv_normalizeKey hwf hequiv

/-- C3 witness: `{"a": 1, "b": [2, None]}` and `{"b": [2, None], "a": 1}`
normalize to the same key. -/
theorem normalize_order_insensitive_mappings_witness :
    normalizeKey (.dict [(.str "a", .scalar (.int 1)),
        (.str "b", .arr [.scalar (.int 2), .scalar .none_])]) =
      normalizeKey (.dict [(.str "b", .arr [.scalar (.int 2), .scalar .none_]),
        (.str "a", .scalar (.int 1))]) := by
  refine normalize_order_insensitive_mappings _ _ ?_ ?_
  · refine StrDictsWF.dict ?_ ?_ (by decide)
    · intro p hp
      rcases List.mem_cons.mp hp with h | h
      · exact ⟨"a", by rw [h]⟩
      · rw [List.mem_singleton.mp h]
        exact ⟨"b", rfl⟩
    · intro p hp
      rcases List.mem_cons.mp hp with h | h
      · rw [h]
        exact StrDictsWF.scalar _
      · rw [List.mem_singleton.mp h]
        refine StrDictsWF.arr ?_
        intro e he
        rcases List.mem_cons.mp he with h' | h'
        · rw [h']
          exact StrDictsWF.scalar _
        · rw [List.mem_singleton.mp h']
          exact StrDictsWF.scalar _
  · have hent : PermEquivEntries
        [(.str "a", .scalar (.int 1)), (.str "b", .arr [.scalar (.int 2), .scalar .none_])]
        [(.str "a", .scalar (.int 1)), (.str "b", .arr [.scalar (.int 2), .scalar .none_])] :=
      .cons (.scalar _) (.cons (.arr (.cons (.scalar _) (.cons (.scalar _) .nil))) .nil)
    have hpm : ([((Scalar.str "a"), PyVal.scalar (.int 1)),
          (.str "b", .arr [.scalar (.int 2), .scalar .none_])]).Perm
        [(.str "b", .arr [.scalar (.int 2), .scalar .none_]), (.str "a", .scalar (.int 1))] := by
      decide
    exact PermEquiv.dict hent hpm

end Bolivar
